import Mathlib

/-!
Verification of the cloudflare-gslb reconciler core.

The Go sources are shallowly embedded:
* `pkg/cloudflare/dns.go` (the record reconciler `ReplaceRecords` and its
  helpers) becomes a pure function from inputs and an API oracle to the list
  of mutation events it issues plus its result;
* `config.go` normalization (`NormalizePriorityLevels`,
  `EffectivePriorityLevels`, `uniqueStrings`) becomes pure list functions;
* the priority selector of `pkg/gslb/service.go` becomes a pure function;
* the HTTP health check status classification and the Slack notifier color
  choice become small total functions.

Go maps are modelled extensionally (a map is its lookup function; where the
code iterates over a map, the iteration order is determinized to the
first-insertion order of the keys — no property proven here depends on that
order beyond the set of visited keys).
-/

namespace Gslb

/-- A DNS record as the reconciler sees it: the provider-assigned `id` and the
`content` (the IP literal).  These are the only two fields of
`dns.RecordResponse` that `pkg/cloudflare/dns.go` reads. -/
structure RecordResponse where
  id : String
  content : String
deriving Repr, DecidableEq

/-- Loop body of `dedupeContents` (pkg/cloudflare/dns.go): skip empty strings,
skip values already in `seen`, otherwise record the value in `seen` and emit
it.  The Go `seen` map is modelled by the list of keys inserted so far. -/
def dedupeContentsGo (seen : List String) : List String → List String
  | [] => []
  | value :: values =>
    if value = "" then dedupeContentsGo seen values
    else if seen.contains value then dedupeContentsGo seen values
    else value :: dedupeContentsGo (value :: seen) values

/-- `dedupeContents` from pkg/cloudflare/dns.go. -/
def dedupeContents (values : List String) : List String :=
  dedupeContentsGo [] values

/-- `buildContentSet` from pkg/cloudflare/dns.go builds a `map[string]struct{}`
used only for membership tests; the map is modelled by its key list and
membership by `List.contains`. -/
def buildContentSet (contents : List String) : List String :=
  contents

/-- Fold of `groupRecordsByContent`'s loop: `recordsByContent[record.Content] =
append(recordsByContent[record.Content], record)`.  The Go map is modelled by
its lookup function. -/
def groupFold (m : String → List RecordResponse) :
    List RecordResponse → (String → List RecordResponse)
  | [] => m
  | r :: rs => groupFold (fun c => if c = r.content then m c ++ [r] else m c) rs

/-- `groupRecordsByContent` from pkg/cloudflare/dns.go, as a lookup function
(a missing key yields `[]`, as a Go map lookup yields `nil`). -/
def groupRecordsByContent (records : List RecordResponse) : String → List RecordResponse :=
  groupFold (fun _ => []) records

/-- First-occurrence key order: the keys of the Go map `recordsByContent`,
determinized (Go map iteration order is unspecified). -/
def firstKeys (seen : List String) : List String → List String
  | [] => []
  | c :: cs =>
    if seen.contains c then firstKeys seen cs
    else c :: firstKeys (c :: seen) cs

/-- The key list of `groupRecordsByContent records`. -/
def mapKeys (records : List RecordResponse) : List String :=
  firstKeys [] (records.map (·.content))

/-- First loop of `diffRecords` (over `desired`): a content with no existing
record goes to `missing`; for a content with more than one record, all but the
first are queued for deletion. -/
def diffDesiredLoop (m : String → List RecordResponse) :
    List String → List String × List RecordResponse
  | [] => ([], [])
  | content :: rest =>
    let existing := m content
    let acc := diffDesiredLoop m rest
    if existing.length = 0 then (content :: acc.1, acc.2)
    else if 1 < existing.length then (acc.1, existing.drop 1 ++ acc.2)
    else acc

/-- Second loop of `diffRecords` (over the map): every group whose content is
not in `desiredSet` is deleted wholesale.  `keys` is the determinized map
iteration order. -/
def diffSurplusLoop (desiredSet : List String) (m : String → List RecordResponse) :
    List String → List RecordResponse
  | [] => []
  | c :: ks =>
    if desiredSet.contains c then diffSurplusLoop desiredSet m ks
    else m c ++ diffSurplusLoop desiredSet m ks

/-- `diffRecords` from pkg/cloudflare/dns.go: returns `(missing,
recordsToDelete)`. -/
def diffRecords (desired desiredSet : List String) (keys : List String)
    (m : String → List RecordResponse) : List String × List RecordResponse :=
  ((diffDesiredLoop m desired).1,
   (diffDesiredLoop m desired).2 ++ diffSurplusLoop desiredSet m keys)

/-- One DNS mutation issued by the client, together with whether the provider
accepted it (`ok = false` records a failed API call). -/
inductive Ev where
  | create (content : String) (ok : Bool)
  | delete (id : String) (ok : Bool)
deriving Repr, DecidableEq

def Ev.isCreate : Ev → Bool
  | .create _ _ => true
  | .delete _ _ => false

def Ev.isDelete : Ev → Bool
  | .create _ _ => false
  | .delete _ _ => true

/-- Errors `ReplaceRecords` can return (the provider errors are abstracted to
which call failed). -/
inductive ApiError where
  | noContents
  | createFailed (content : String)
  | deleteFailed (id : String)
deriving Repr, DecidableEq

/-- `createRecords` from pkg/cloudflare/dns.go: create each content in order,
returning the first create error.  `createOk` is the API oracle saying whether
the provider accepts a create of the given content. -/
def createRecords (createOk : String → Bool) :
    List String → List Ev × Except ApiError Unit
  | [] => ([], .ok ())
  | content :: rest =>
    if createOk content then
      (Ev.create content true :: (createRecords createOk rest).1,
       (createRecords createOk rest).2)
    else ([Ev.create content false], .error (.createFailed content))

/-- `deleteRecords` from pkg/cloudflare/dns.go: delete each record in order,
returning on the first delete error (the 500 ms sleep is irrelevant to the
embedded state).  `deleteOk` is the API oracle keyed by record id. -/
def deleteRecords (deleteOk : String → Bool) :
    List RecordResponse → List Ev × Except ApiError Unit
  | [] => ([], .ok ())
  | r :: rs =>
    if deleteOk r.id then
      (Ev.delete r.id true :: (deleteRecords deleteOk rs).1,
       (deleteRecords deleteOk rs).2)
    else ([Ev.delete r.id false], .error (.deleteFailed r.id))

/-- `ReplaceRecords` from pkg/cloudflare/dns.go, given the current record list
`records` (the result of `GetDNSRecords`, assumed to succeed) and the API
oracles.  Returns the list of mutation events issued, in order, and the
call's result. -/
def ReplaceRecords (createOk deleteOk : String → Bool)
    (records : List RecordResponse) (newContents : List String) :
    List Ev × Except ApiError Unit :=
  if newContents.length = 0 then ([], .error .noContents)
  else if records.length = 0 then createRecords createOk (dedupeContents newContents)
  else
    let desired := dedupeContents newContents
    let md := diffRecords desired (buildContentSet desired) (mapKeys records)
      (groupRecordsByContent records)
    let cr := createRecords createOk md.1
    match cr.2 with
    | .error e => (cr.1, .error e)
    | .ok _ =>
      if md.2.length = 0 then (cr.1, .ok ())
      else (cr.1 ++ (deleteRecords deleteOk md.2).1, (deleteRecords deleteOk md.2).2)

/-- The `missing` list computed inside `ReplaceRecords`. -/
def missingOf (records : List RecordResponse) (newContents : List String) : List String :=
  (diffRecords (dedupeContents newContents) (buildContentSet (dedupeContents newContents))
    (mapKeys records) (groupRecordsByContent records)).1

/-- The `recordsToDelete` list computed inside `ReplaceRecords`. -/
def toDeleteOf (records : List RecordResponse) (newContents : List String) :
    List RecordResponse :=
  (diffRecords (dedupeContents newContents) (buildContentSet (dedupeContents newContents))
    (mapKeys records) (groupRecordsByContent records)).2

/-- Effect of one event on the provider's record set: a successful create
appends a record with a fresh id `mkId content`; a successful delete removes
the record with the given id; failed calls leave the set unchanged. -/
def applyEv (mkId : String → String) (recs : List RecordResponse) : Ev → List RecordResponse
  | .create c true => recs ++ [⟨mkId c, c⟩]
  | .create _ false => recs
  | .delete i true => recs.filter (fun r => !(r.id == i))
  | .delete _ false => recs

/-- Effect of a sequence of events on the provider's record set. -/
def applyEvs (mkId : String → String) (recs : List RecordResponse) (evs : List Ev) :
    List RecordResponse :=
  evs.foldl (applyEv mkId) recs

/-! ### Priority selector (pkg/gslb/service.go) -/

/-- A priority level: `PriorityLevel` from config.go. -/
structure PriorityLevel where
  priority : Int
  ips : List String
deriving Repr, DecidableEq

/-- Loop of `checkPriorityLevel`: fail on the first IP whose per-IP test
fails.  The per-IP test (`validateIPType` followed by `checker.Check`) is
abstracted into the single predicate `H` (an IP passes iff it is of the right
family and the health check succeeds). -/
def checkIPsLoop (H : String → Bool) : List String → Bool
  | [] => true
  | ip :: rest => if H ip then checkIPsLoop H rest else false

/-- `checkPriorityLevel`: a level with no IPs is never healthy; otherwise
every IP must pass. -/
def checkPriorityLevel (H : String → Bool) (level : PriorityLevel) : Bool :=
  if level.ips.length = 0 then false
  else checkIPsLoop H level.ips

/-- `findPriorityLevel`: the first level with the given priority. -/
def findPriorityLevel : List PriorityLevel → Int → Option PriorityLevel
  | [], _ => none
  | l :: ls, p => if l.priority = p then some l else findPriorityLevel ls p

/-- The scan loop of `selectPriorityLevel`: when `!returnToPriority &&
currentPrioritySet`, levels with `priority > currentPriority` are skipped;
the first level passing `checkPriorityLevel` is returned. -/
def selectLoop (rtp pset : Bool) (pcur : Int) (H : String → Bool) :
    List PriorityLevel → Option (Int × List String)
  | [] => none
  | l :: ls =>
    if (!rtp && pset) && decide (pcur < l.priority) then selectLoop rtp pset pcur H ls
    else if checkPriorityLevel H l then some (l.priority, l.ips)
    else selectLoop rtp pset pcur H ls

/-- `selectPriorityLevel` from pkg/gslb/service.go: the fast path keeps the
current priority when `!returnToPriority && currentPrioritySet` and the level
at the current priority exists and is healthy; otherwise the scan loop runs. -/
def selectPriorityLevel (rtp : Bool) (H : String → Bool) (levels : List PriorityLevel)
    (pcur : Int) (pset : Bool) : Option (Int × List String) :=
  if !rtp && pset then
    match findPriorityLevel levels pcur with
    | some level =>
      if checkPriorityLevel H level then some (pcur, level.ips)
      else selectLoop rtp pset pcur H levels
    | none => selectLoop rtp pset pcur H levels
  else selectLoop rtp pset pcur H levels

/-- Modelled from the spec (§4.5 Definitions): a level is healthy iff it has
at least one IP and every one of its IPs is healthy. -/
def levelHealthySpec (H : String → Bool) (l : PriorityLevel) : Bool :=
  !(l.ips.isEmpty) && l.ips.all H

/-- Modelled from the spec (§4.5 Algorithm), word for word: step 1 returns
`(p_cur, ips)` when `returnToPriority = false`, `p_cur` is set, and the level
at `p_cur` exists and is healthy; step 2 scans in order, skipping levels with
priority above `p_cur` in the same mode, returning the first healthy level;
step 3 returns no target. -/
def selectPriorityLevelSpec (rtp : Bool) (H : String → Bool)
    (levels : List PriorityLevel) (pcur : Int) (pset : Bool) :
    Option (Int × List String) :=
  let scan := fun (ls : List PriorityLevel) =>
    (ls.find? (levelHealthySpec H)).map (fun l => (l.priority, l.ips))
  if rtp = false ∧ pset = true then
    match levels.find? (fun l => l.priority == pcur) with
    | some l =>
      if levelHealthySpec H l then some (pcur, l.ips)
      else scan (levels.filter (fun l => decide (l.priority ≤ pcur)))
    | none => scan (levels.filter (fun l => decide (l.priority ≤ pcur)))
  else scan levels

/-! ### HTTP health probe (pkg/healthcheck/checker.go) -/

/-- Outcome of the probe's HTTP request (`client.Do(req)`), abstracting the
network: either a transport error (connection failure, timeout, …) or a
response carrying a status code. -/
inductive ProbeOutcome where
  | transportError
  | response (status : Int)
deriving Repr, DecidableEq

/-- The decision `HttpChecker.Check` takes on the probe outcome: a transport
error is returned as-is; a response yields `ErrUnexpectedStatusCode` when
`resp.StatusCode < 200 || resp.StatusCode >= 400`, and success otherwise. -/
def httpCheckClassify : ProbeOutcome → Except String Unit
  | .transportError => .error "transport error"
  | .response s =>
    if s < 200 ∨ 400 ≤ s then .error "unexpected status code" else .ok ()

/-! ### Slack notifier color (pkg/notifier/slack.go) and the failover flags
(`checkOrigin` in pkg/gslb/service.go) -/

/-- The attachment color chosen by `SlackNotifier.Notify`: starts at
`"warning"`, becomes `"good"` when `event.ReturnToPriority &&
event.IsPriorityIP`, else `"danger"` when `event.IsFailoverIP`. -/
def slackColor (returnToPriority isPriorityIP isFailoverIP : Bool) : String :=
  if returnToPriority && isPriorityIP then "good"
  else if isFailoverIP then "danger"
  else "warning"

/-- `isPriorityIP := selectedPriority == maxPriority` as computed in
`checkOrigin`. -/
def isPriorityIPFlag (selectedPriority maxPriority : Int) : Bool :=
  selectedPriority == maxPriority

/-- `isFailoverIP := selectedPriority < maxPriority` as computed in
`checkOrigin`. -/
def isFailoverIPFlag (selectedPriority maxPriority : Int) : Bool :=
  decide (selectedPriority < maxPriority)

/-! ### Config priority-level normalization (config.go) -/

/-- Loop body of `uniqueStrings` (config.go): identical structure to
`dedupeContents` — skip empty strings and duplicates, keep first
occurrences. -/
def uniqueStringsGo (seen : List String) : List String → List String
  | [] => []
  | value :: values =>
    if value = "" then uniqueStringsGo seen values
    else if seen.contains value then uniqueStringsGo seen values
    else value :: uniqueStringsGo (value :: seen) values

/-- `uniqueStrings` from config.go. -/
def uniqueStrings (values : List String) : List String :=
  uniqueStringsGo [] values

def LegacyPriorityHigh : Int := 100

def LegacyPriorityLow : Int := 0

/-- `legacyPriorityLevels` from config.go: `priorityFailoverIps` becomes the
priority-100 level and `failoverIps` the priority-0 level, each appended only
when its raw IP list is non-empty. -/
def legacyPriorityLevels (priorityIPs failoverIPs : List String) : List PriorityLevel :=
  (if 0 < priorityIPs.length then [⟨LegacyPriorityHigh, priorityIPs⟩] else []) ++
  (if 0 < failoverIPs.length then [⟨LegacyPriorityLow, failoverIPs⟩] else [])

/-- The `order` slice of `NormalizePriorityLevels`: priorities in first
appearance order, skipping levels with no IPs. -/
def priorityOrder (seen : List Int) : List PriorityLevel → List Int
  | [] => []
  | l :: ls =>
    if l.ips.length = 0 then priorityOrder seen ls
    else if seen.contains l.priority then priorityOrder seen ls
    else l.priority :: priorityOrder (l.priority :: seen) ls

/-- The `merged` map of `NormalizePriorityLevels` at key `p`: concatenation of
the IP lists of the non-empty levels with priority `p`, in order. -/
def mergedAt (levels : List PriorityLevel) (p : Int) : List String :=
  ((levels.filter (fun l => !(l.ips.isEmpty) && l.priority == p)).map (·.ips)).flatten

/-- Second loop of `NormalizePriorityLevels`: for each priority in first
appearance order, de-duplicate the merged IPs and drop the level when nothing
remains. -/
def buildNormalized (levels : List PriorityLevel) : List Int → List PriorityLevel
  | [] => []
  | p :: ps =>
    let ips := uniqueStrings (mergedAt levels p)
    if ips.length = 0 then buildNormalized levels ps
    else ⟨p, ips⟩ :: buildNormalized levels ps

/-- `NormalizePriorityLevels` from config.go. -/
def NormalizePriorityLevels (levels : List PriorityLevel) : List PriorityLevel :=
  if levels.length = 0 then []
  else buildNormalized levels (priorityOrder [] levels)

/-- `EffectivePriorityLevels` from config.go, as a function of the three
origin fields it reads: normalized explicit `priorityLevels` win when
non-empty, otherwise the normalized legacy levels are used. -/
def EffectivePriorityLevels (priorityLevels : List PriorityLevel)
    (priorityFailoverIPs failoverIPs : List String) : List PriorityLevel :=
  let levels := NormalizePriorityLevels priorityLevels
  if 0 < levels.length then levels
  else NormalizePriorityLevels (legacyPriorityLevels priorityFailoverIPs failoverIPs)

/-! ### Basic lemmas about the helper functions -/

theorem mem_dedupeContentsGo {c : String} :
    ∀ (vs seen : List String), c ∈ dedupeContentsGo seen vs ↔ c ∈ vs ∧ c ≠ "" ∧ c ∉ seen
  | [], seen => by simp [dedupeContentsGo]
  | v :: vs, seen => by
    by_cases hv : v = ""
    · subst hv
      rw [dedupeContentsGo, if_pos rfl, mem_dedupeContentsGo vs seen, List.mem_cons]
      tauto
    · by_cases hs : seen.contains v
      · have hvs : v ∈ seen := List.elem_iff.mp hs
        have hcv : c = v → c ∈ seen := fun h => h ▸ hvs
        rw [dedupeContentsGo, if_neg hv, if_pos hs, mem_dedupeContentsGo vs seen,
          List.mem_cons]
        tauto
      · have hvseen : v ∉ seen := fun h => hs (List.elem_iff.mpr h)
        have h1 : c = v → c ≠ "" := fun h => h ▸ hv
        have h2 : c = v → c ∉ seen := fun h => h ▸ hvseen
        rw [dedupeContentsGo, if_neg hv, if_neg hs, List.mem_cons,
          mem_dedupeContentsGo vs (v :: seen)]
        simp only [List.mem_cons]
        by_cases h6 : c = v
        · subst h6; tauto
        · tauto

theorem mem_dedupeContents {c : String} {vs : List String} :
    c ∈ dedupeContents vs ↔ c ∈ vs ∧ c ≠ "" := by
  simp [dedupeContents, mem_dedupeContentsGo]

theorem nodup_dedupeContentsGo :
    ∀ (vs seen : List String), (dedupeContentsGo seen vs).Nodup
  | [], _ => List.nodup_nil
  | v :: vs, seen => by
    by_cases hv : v = ""
    · rw [dedupeContentsGo, if_pos hv]
      exact nodup_dedupeContentsGo vs seen
    · by_cases hs : seen.contains v
      · rw [dedupeContentsGo, if_neg hv, if_pos hs]
        exact nodup_dedupeContentsGo vs seen
      · rw [dedupeContentsGo, if_neg hv, if_neg hs, List.nodup_cons]
        refine ⟨fun hc => ?_, nodup_dedupeContentsGo vs (v :: seen)⟩
        exact ((mem_dedupeContentsGo vs (v :: seen)).mp hc).2.2 (List.mem_cons_self _ _)

theorem nodup_dedupeContents (vs : List String) : (dedupeContents vs).Nodup :=
  nodup_dedupeContentsGo vs []

theorem mem_firstKeys {c : String} :
    ∀ (cs seen : List String), c ∈ firstKeys seen cs ↔ c ∈ cs ∧ c ∉ seen
  | [], seen => by simp [firstKeys]
  | v :: cs, seen => by
    by_cases hs : seen.contains v
    · have hvs : v ∈ seen := List.elem_iff.mp hs
      have hcv : c = v → c ∈ seen := fun h => h ▸ hvs
      rw [firstKeys, if_pos hs, mem_firstKeys cs seen, List.mem_cons]
      tauto
    · have hvseen : v ∉ seen := fun h => hs (List.elem_iff.mpr h)
      rw [firstKeys, if_neg hs, List.mem_cons, mem_firstKeys cs (v :: seen)]
      simp only [List.mem_cons]
      by_cases h6 : c = v
      · subst h6; tauto
      · tauto

theorem mem_mapKeys {c : String} {records : List RecordResponse} :
    c ∈ mapKeys records ↔ c ∈ records.map (·.content) := by
  simp [mapKeys, mem_firstKeys]

theorem groupFold_eval :
    ∀ (rs : List RecordResponse) (m : String → List RecordResponse) (c : String),
      groupFold m rs c = m c ++ rs.filter (fun r => r.content == c)
  | [], m, c => by simp [groupFold]
  | r :: rs, m, c => by
    rw [groupFold, groupFold_eval rs]
    by_cases h : r.content = c
    · subst h; simp [List.filter_cons]
    · simp [List.filter_cons, h, Ne.symm h]

theorem groupRecordsByContent_eval (records : List RecordResponse) (c : String) :
    groupRecordsByContent records c = records.filter (fun r => r.content == c) := by
  simp [groupRecordsByContent, groupFold_eval]

theorem mem_group {r : RecordResponse} {records : List RecordResponse} {c : String} :
    r ∈ groupRecordsByContent records c ↔ r ∈ records ∧ r.content = c := by
  simp [groupRecordsByContent_eval, List.mem_filter]

theorem group_ne_nil_iff {records : List RecordResponse} {c : String} :
    groupRecordsByContent records c ≠ [] ↔ c ∈ records.map (·.content) := by
  constructor
  · intro h
    match hg : groupRecordsByContent records c with
    | [] => exact absurd hg h
    | r :: rs =>
      have hr : r ∈ groupRecordsByContent records c := by
        rw [hg]; exact List.mem_cons_self _ _
      exact List.mem_map.mpr ⟨r, (mem_group.mp hr).1, (mem_group.mp hr).2⟩
  · intro hm hnil
    obtain ⟨r, hr, hc⟩ := List.mem_map.mp hm
    have hmem : r ∈ groupRecordsByContent records c := mem_group.mpr ⟨hr, hc⟩
    rw [hnil] at hmem
    exact (List.not_mem_nil r) hmem

theorem mem_diffMissing {c : String} {m : String → List RecordResponse} :
    ∀ {l : List String}, c ∈ (diffDesiredLoop m l).1 ↔ c ∈ l ∧ m c = []
  | [] => by simp [diffDesiredLoop]
  | content :: rest => by
    simp only [diffDesiredLoop]
    by_cases h0 : (m content).length = 0
    · have h0' : m content = [] := List.length_eq_zero.mp h0
      simp only [if_pos h0, List.mem_cons, mem_diffMissing (l := rest)]
      constructor
      · rintro (rfl | ⟨h1, h2⟩)
        · exact ⟨Or.inl rfl, h0'⟩
        · exact ⟨Or.inr h1, h2⟩
      · rintro ⟨rfl | h1, h2⟩
        · exact Or.inl rfl
        · exact Or.inr ⟨h1, h2⟩
    · by_cases h1 : 1 < (m content).length
      · simp only [if_neg h0, if_pos h1, mem_diffMissing (l := rest), List.mem_cons]
        constructor
        · rintro ⟨ha, hb⟩; exact ⟨Or.inr ha, hb⟩
        · rintro ⟨rfl | ha, hb⟩
          · exact absurd (by simp [hb]) h0
          · exact ⟨ha, hb⟩
      · simp only [if_neg h0, if_neg h1, mem_diffMissing (l := rest), List.mem_cons]
        constructor
        · rintro ⟨ha, hb⟩; exact ⟨Or.inr ha, hb⟩
        · rintro ⟨rfl | ha, hb⟩
          · exact absurd (by simp [hb]) h0
          · exact ⟨ha, hb⟩

theorem diffMissing_eq_filter (m : String → List RecordResponse) :
    ∀ (l : List String), (diffDesiredLoop m l).1 = l.filter (fun c => (m c).isEmpty)
  | [] => by simp [diffDesiredLoop]
  | content :: rest => by
    rw [diffDesiredLoop, List.filter_cons]
    by_cases h0 : (m content).length = 0
    · have hnil : m content = [] := List.length_eq_zero.mp h0
      have h0' : (m content).isEmpty = true := by simp [hnil]
      simp only [if_pos h0, h0', if_true, cond_true]
      simp [diffMissing_eq_filter m rest]
    · have hnil : m content ≠ [] := fun hc => h0 (by simp [hc])
      have h0' : (m content).isEmpty = false := by
        simp [List.isEmpty_iff, hnil]
      by_cases h1 : 1 < (m content).length
      · simp only [if_neg h0, if_pos h1, h0', if_false, cond_false]
        simp [diffMissing_eq_filter m rest]
      · simp only [if_neg h0, if_neg h1, h0', if_false, cond_false]
        simp [diffMissing_eq_filter m rest]

theorem mem_diffDupes {r : RecordResponse} {m : String → List RecordResponse} :
    ∀ {l : List String}, r ∈ (diffDesiredLoop m l).2 ↔ ∃ c ∈ l, r ∈ (m c).drop 1
  | [] => by simp [diffDesiredLoop]
  | content :: rest => by
    simp only [diffDesiredLoop]
    by_cases h0 : (m content).length = 0
    · have h0' : m content = [] := List.length_eq_zero.mp h0
      simp only [if_pos h0, mem_diffDupes (l := rest), List.mem_cons]
      constructor
      · rintro ⟨c, hc, hr⟩; exact ⟨c, Or.inr hc, hr⟩
      · rintro ⟨c, rfl | hc, hr⟩
        · simp [h0'] at hr
        · exact ⟨c, hc, hr⟩
    · by_cases h1 : 1 < (m content).length
      · simp only [if_neg h0, if_pos h1, List.mem_append, mem_diffDupes (l := rest),
          List.mem_cons]
        constructor
        · rintro (hr | ⟨c, hc, hr⟩)
          · exact ⟨content, Or.inl rfl, hr⟩
          · exact ⟨c, Or.inr hc, hr⟩
        · rintro ⟨c, rfl | hc, hr⟩
          · exact Or.inl hr
          · exact Or.inr ⟨c, hc, hr⟩
      · have hd : (m content).drop 1 = [] := by
          apply List.eq_nil_of_length_eq_zero
          simp only [List.length_drop]
          omega
        simp only [if_neg h0, if_neg h1, mem_diffDupes (l := rest), List.mem_cons]
        constructor
        · rintro ⟨c, hc, hr⟩; exact ⟨c, Or.inr hc, hr⟩
        · rintro ⟨c, rfl | hc, hr⟩
          · simp [hd] at hr
          · exact ⟨c, hc, hr⟩

theorem mem_diffSurplus {r : RecordResponse} {ds : List String}
    {m : String → List RecordResponse} :
    ∀ {k : List String},
      r ∈ diffSurplusLoop ds m k ↔ ∃ c ∈ k, ds.contains c = false ∧ r ∈ m c
  | [] => by simp [diffSurplusLoop]
  | c :: ks => by
    simp only [diffSurplusLoop]
    by_cases hc : ds.contains c
    · simp only [if_pos hc, mem_diffSurplus (k := ks), List.mem_cons]
      constructor
      · rintro ⟨d, hd, h1, h2⟩; exact ⟨d, Or.inr hd, h1, h2⟩
      · rintro ⟨d, rfl | hd, h1, h2⟩
        · rw [hc] at h1; cases h1
        · exact ⟨d, hd, h1, h2⟩
    · simp only [if_neg hc, List.mem_append, mem_diffSurplus (k := ks), List.mem_cons]
      constructor
      · rintro (hr | ⟨d, hd, h1, h2⟩)
        · exact ⟨c, Or.inl rfl, Bool.not_eq_true _ ▸ eq_false_of_ne_true hc, hr⟩
        · exact ⟨d, Or.inr hd, h1, h2⟩
      · rintro ⟨d, rfl | hd, h1, h2⟩
        · exact Or.inl h2
        · exact Or.inr ⟨d, hd, h1, h2⟩

theorem toDelete_subset {records : List RecordResponse} {newContents : List String}
    {r : RecordResponse} (hr : r ∈ toDeleteOf records newContents) : r ∈ records := by
  rcases List.mem_append.mp hr with h | h
  · obtain ⟨c, _, hc⟩ := mem_diffDupes.mp h
    exact (mem_group.mp (List.mem_of_mem_drop hc)).1
  · obtain ⟨c, _, _, hc⟩ := mem_diffSurplus.mp h
    exact (mem_group.mp hc).1

/-! ### Shape lemmas for the create and delete loops -/

theorem createRecords_of_all_ok {f : String → Bool} :
    ∀ {cs : List String}, (∀ c ∈ cs, f c = true) →
      createRecords f cs = (cs.map (fun c => Ev.create c true), .ok ())
  | [], _ => rfl
  | c :: cs, h => by
    have hc : f c = true := h c (List.mem_cons_self _ _)
    have ih := createRecords_of_all_ok (fun x hx => h x (List.mem_cons_of_mem _ hx))
    simp [createRecords, hc, ih]

theorem createRecords_cases (f : String → Bool) :
    ∀ (cs : List String),
      ((∀ c ∈ cs, f c = true) ∧
        createRecords f cs = (cs.map (fun c => Ev.create c true), .ok ())) ∨
      (∃ p c q, cs = p ++ c :: q ∧ (∀ x ∈ p, f x = true) ∧ f c = false ∧
        createRecords f cs =
          (p.map (fun x => Ev.create x true) ++ [Ev.create c false],
           .error (.createFailed c)))
  | [] => Or.inl ⟨by simp, rfl⟩
  | c :: cs => by
    by_cases hc : f c = true
    · rcases createRecords_cases f cs with ⟨hall, heq⟩ | ⟨p, d, q, hcs, hp, hd, heq⟩
      · refine Or.inl ⟨?_, by simp [createRecords, hc, heq]⟩
        intro x hx
        rcases List.mem_cons.mp hx with rfl | hx
        · exact hc
        · exact hall x hx
      · refine Or.inr ⟨c :: p, d, q, by simp [hcs], ?_, hd, ?_⟩
        · intro x hx
          rcases List.mem_cons.mp hx with rfl | hx
          · exact hc
          · exact hp x hx
        · simp [createRecords, hc, heq]
    · have hc' : f c = false := eq_false_of_ne_true hc
      refine Or.inr ⟨[], c, cs, by simp, by simp, hc', ?_⟩
      simp [createRecords, hc']

theorem deleteRecords_of_all_ok {g : String → Bool} :
    ∀ {rs : List RecordResponse}, (∀ r ∈ rs, g r.id = true) →
      deleteRecords g rs = (rs.map (fun r => Ev.delete r.id true), .ok ())
  | [], _ => rfl
  | r :: rs, h => by
    have hr : g r.id = true := h r (List.mem_cons_self _ _)
    have ih := deleteRecords_of_all_ok (fun x hx => h x (List.mem_cons_of_mem _ hx))
    simp [deleteRecords, hr, ih]

theorem deleteRecords_stops_at_first_failure (g : String → Bool)
    (p q : List RecordResponse) (r : RecordResponse)
    (hp : ∀ x ∈ p, g x.id = true) (hr : g r.id = false) :
    deleteRecords g (p ++ r :: q) =
      (p.map (fun x => Ev.delete x.id true) ++ [Ev.delete r.id false],
       .error (.deleteFailed r.id)) := by
  induction p with
  | nil => simp [deleteRecords, hr]
  | cons a p ih =>
    have ha : g a.id = true := hp a (List.mem_cons_self _ _)
    have ih' := ih (fun x hx => hp x (List.mem_cons_of_mem _ hx))
    simp [deleteRecords, ha, ih']

theorem createRecords_events {f : String → Bool} {e : Ev} :
    ∀ {cs : List String}, e ∈ (createRecords f cs).1 → ∃ c b, c ∈ cs ∧ e = .create c b
  | [], h => by simp [createRecords] at h
  | c :: cs, h => by
    by_cases hc : f c = true
    · rw [createRecords, if_pos hc] at h
      rcases List.mem_cons.mp h with rfl | h
      · exact ⟨c, true, List.mem_cons_self _ _, rfl⟩
      · obtain ⟨d, b, hd, he⟩ := createRecords_events h
        exact ⟨d, b, List.mem_cons_of_mem _ hd, he⟩
    · rw [createRecords, if_neg hc] at h
      rcases List.mem_cons.mp h with rfl | h
      · exact ⟨c, false, List.mem_cons_self _ _, rfl⟩
      · simp at h

theorem deleteRecords_events {g : String → Bool} {e : Ev} :
    ∀ {rs : List RecordResponse},
      e ∈ (deleteRecords g rs).1 → ∃ r b, r ∈ rs ∧ e = .delete r.id b
  | [], h => by simp [deleteRecords] at h
  | r :: rs, h => by
    by_cases hr : g r.id = true
    · rw [deleteRecords, if_pos hr] at h
      rcases List.mem_cons.mp h with rfl | h
      · exact ⟨r, true, List.mem_cons_self _ _, rfl⟩
      · obtain ⟨d, b, hd, he⟩ := deleteRecords_events h
        exact ⟨d, b, List.mem_cons_of_mem _ hd, he⟩
    · rw [deleteRecords, if_neg hr] at h
      rcases List.mem_cons.mp h with rfl | h
      · exact ⟨r, false, List.mem_cons_self _ _, rfl⟩
      · simp at h

theorem createRecords_error_shape {f : String → Bool} (cs : List String) :
    (createRecords f cs).2 = .ok () ∨
      ∃ c ∈ cs, (createRecords f cs).2 = .error (.createFailed c) := by
  rcases createRecords_cases f cs with ⟨_, heq⟩ | ⟨p, c, q, hcs, _, _, heq⟩
  · exact Or.inl (by rw [heq])
  · exact Or.inr ⟨c, by simp [hcs], by rw [heq]⟩

theorem deleteRecords_error_shape {g : String → Bool} :
    ∀ (rs : List RecordResponse),
      (deleteRecords g rs).2 = .ok () ∨
        ∃ r ∈ rs, (deleteRecords g rs).2 = .error (.deleteFailed r.id)
  | [] => Or.inl rfl
  | r :: rs => by
    by_cases hr : g r.id = true
    · rcases deleteRecords_error_shape (g := g) rs with h | ⟨d, hd, h⟩
      · exact Or.inl (by rw [deleteRecords, if_pos hr]; exact h)
      · exact Or.inr ⟨d, List.mem_cons_of_mem _ hd, by rw [deleteRecords, if_pos hr]; exact h⟩
    · exact Or.inr ⟨r, List.mem_cons_self _ _, by rw [deleteRecords, if_neg hr]⟩

/-! ### Lemmas about applying event sequences to a record set -/

theorem applyEvs_append (mkId : String → String) (recs : List RecordResponse)
    (a b : List Ev) :
    applyEvs mkId recs (a ++ b) = applyEvs mkId (applyEvs mkId recs a) b :=
  List.foldl_append _ _ _ _

theorem mem_applyEvs_of_id_not_deleted {mkId : String → String} {r : RecordResponse} :
    ∀ {evs : List Ev} {recs : List RecordResponse}, r ∈ recs →
      (∀ i b, Ev.delete i b ∈ evs → ¬ i = r.id) → r ∈ applyEvs mkId recs evs
  | [], _, h, _ => h
  | e :: evs, recs, h, hdel => by
    rw [applyEvs, List.foldl_cons]
    have step : r ∈ applyEv mkId recs e := by
      match e with
      | .create c true => exact List.mem_append_left _ h
      | .create c false => exact h
      | .delete i true =>
        have hne : ¬ i = r.id := hdel i true (List.mem_cons_self _ _)
        rw [applyEv]
        refine List.mem_filter.mpr ⟨h, ?_⟩
        simp only [Bool.not_eq_true']
        exact beq_eq_false_iff_ne.mpr (fun hc => hne hc.symm)
      | .delete i false => exact h
    exact mem_applyEvs_of_id_not_deleted step
      (fun i b hib => hdel i b (List.mem_cons_of_mem _ hib))

theorem applyEvs_creates (mkId : String → String) :
    ∀ (cs : List String) (recs : List RecordResponse),
      applyEvs mkId recs (cs.map (fun c => Ev.create c true)) =
        recs ++ cs.map (fun c => (⟨mkId c, c⟩ : RecordResponse))
  | [], recs => by simp [applyEvs]
  | c :: cs, recs => by
    rw [List.map_cons, applyEvs, List.foldl_cons]
    have := applyEvs_creates mkId cs (recs ++ [⟨mkId c, c⟩])
    rw [applyEvs] at this
    simp only [applyEv] at this ⊢
    rw [this]
    simp

theorem applyEvs_deletes (mkId : String → String) :
    ∀ (ds : List RecordResponse) (recs : List RecordResponse),
      applyEvs mkId recs (ds.map (fun d => Ev.delete d.id true)) =
        recs.filter (fun x => !((ds.map (·.id)).contains x.id))
  | [], recs => by simp [applyEvs]
  | d :: ds, recs => by
    rw [List.map_cons, applyEvs, List.foldl_cons]
    have := applyEvs_deletes mkId ds (applyEv mkId recs (Ev.delete d.id true))
    rw [applyEvs] at this
    rw [this, applyEv, List.filter_filter]
    apply List.filter_congr
    intro x _
    simp only [List.map_cons, List.contains_cons, Bool.not_or]
    rw [Bool.and_comm]

/-! ### Branch lemmas for `ReplaceRecords` -/

theorem replace_guard (createOk deleteOk : String → Bool) (records : List RecordResponse)
    {newContents : List String} (h : newContents.length = 0) :
    ReplaceRecords createOk deleteOk records newContents = ([], .error .noContents) := by
  simp only [ReplaceRecords, if_pos h]

theorem replace_emptyRecords (createOk deleteOk : String → Bool)
    {records : List RecordResponse} {newContents : List String}
    (hc : ¬newContents.length = 0) (hr : records.length = 0) :
    ReplaceRecords createOk deleteOk records newContents =
      createRecords createOk (dedupeContents newContents) := by
  simp only [ReplaceRecords, if_neg hc, if_pos hr]

theorem replace_main_eq (createOk deleteOk : String → Bool)
    {records : List RecordResponse} {newContents : List String}
    (hc : ¬newContents.length = 0) (hr : ¬records.length = 0) :
    ReplaceRecords createOk deleteOk records newContents =
      (match (createRecords createOk (missingOf records newContents)).2 with
       | .error e => ((createRecords createOk (missingOf records newContents)).1,
           Except.error e)
       | .ok _ =>
         if (toDeleteOf records newContents).length = 0 then
           ((createRecords createOk (missingOf records newContents)).1, Except.ok ())
         else
           ((createRecords createOk (missingOf records newContents)).1 ++
              (deleteRecords deleteOk (toDeleteOf records newContents)).1,
            (deleteRecords deleteOk (toDeleteOf records newContents)).2)) := by
  simp only [ReplaceRecords, if_neg hc, if_neg hr, missingOf, toDeleteOf]

theorem replace_main_createError (createOk deleteOk : String → Bool)
    {records : List RecordResponse} {newContents : List String}
    (hc : ¬newContents.length = 0) (hr : ¬records.length = 0)
    {t1 : List Ev} {e : ApiError}
    (heq : createRecords createOk (missingOf records newContents) = (t1, .error e)) :
    ReplaceRecords createOk deleteOk records newContents = (t1, .error e) := by
  rw [replace_main_eq createOk deleteOk hc hr, heq]

theorem replace_main_okNoDelete (createOk deleteOk : String → Bool)
    {records : List RecordResponse} {newContents : List String}
    (hc : ¬newContents.length = 0) (hr : ¬records.length = 0)
    {t1 : List Ev}
    (heq : createRecords createOk (missingOf records newContents) = (t1, .ok ()))
    (hdel : (toDeleteOf records newContents).length = 0) :
    ReplaceRecords createOk deleteOk records newContents = (t1, .ok ()) := by
  rw [replace_main_eq createOk deleteOk hc hr, heq]
  simp only [if_pos hdel]

theorem replace_main_okDelete (createOk deleteOk : String → Bool)
    {records : List RecordResponse} {newContents : List String}
    (hc : ¬newContents.length = 0) (hr : ¬records.length = 0)
    {t1 : List Ev}
    (heq : createRecords createOk (missingOf records newContents) = (t1, .ok ()))
    (hdel : ¬(toDeleteOf records newContents).length = 0) :
    ReplaceRecords createOk deleteOk records newContents =
      (t1 ++ (deleteRecords deleteOk (toDeleteOf records newContents)).1,
       (deleteRecords deleteOk (toDeleteOf records newContents)).2) := by
  rw [replace_main_eq createOk deleteOk hc hr, heq]
  simp only [if_neg hdel]

/-! ### Which records survive the delete phase -/

theorem mem_missingOf {records : List RecordResponse} {newContents : List String}
    {c : String} :
    c ∈ missingOf records newContents ↔
      c ∈ dedupeContents newContents ∧ groupRecordsByContent records c = [] :=
  mem_diffMissing

theorem head_not_deleted {records : List RecordResponse} {newContents : List String}
    (hids : (records.map (·.id)).Nodup) {c : String} {hd : RecordResponse}
    {tl : List RecordResponse} (hc : c ∈ dedupeContents newContents)
    (hg : groupRecordsByContent records c = hd :: tl) :
    hd.id ∉ (toDeleteOf records newContents).map (·.id) := by
  intro hmem
  obtain ⟨r, hr, hrid⟩ := List.mem_map.mp hmem
  have hhdmem : hd ∈ groupRecordsByContent records c := by
    rw [hg]; exact List.mem_cons_self _ _
  have hhd : hd ∈ records := (mem_group.mp hhdmem).1
  have hcont : hd.content = c := (mem_group.mp hhdmem).2
  have hrrec : r ∈ records := toDelete_subset hr
  have hreq : r = hd := List.inj_on_of_nodup_map hids hrrec hhd hrid
  rcases List.mem_append.mp hr with hdup | hsur
  · obtain ⟨c', hc', hdrop⟩ := mem_diffDupes.mp hdup
    have hcont' : r.content = c' := (mem_group.mp (List.mem_of_mem_drop hdrop)).2
    have hceq : c' = c := by rw [← hcont', hreq, hcont]
    rw [hceq, hg, List.drop_one, List.tail_cons, hreq] at hdrop
    have hnodup : (groupRecordsByContent records c).Nodup := by
      rw [groupRecordsByContent_eval]
      exact (List.Nodup.of_map _ hids).filter _
    rw [hg] at hnodup
    exact (List.nodup_cons.mp hnodup).1 hdrop
  · obtain ⟨c', _, hns, hmem'⟩ := mem_diffSurplus.mp hsur
    have hcont' : r.content = c' := (mem_group.mp hmem').2
    have hceq : c' = c := by rw [← hcont', hreq, hcont]
    rw [show buildContentSet (dedupeContents newContents) = dedupeContents newContents
      from rfl, hceq] at hns
    have hT : (dedupeContents newContents).contains c = true := List.elem_iff.mpr hc
    exact absurd (hT.symm.trans hns) (by simp)

theorem tail_mem_toDelete {records : List RecordResponse} {newContents : List String}
    {c : String} {hd t : RecordResponse} {tl : List RecordResponse}
    (hc : c ∈ dedupeContents newContents)
    (hg : groupRecordsByContent records c = hd :: tl) (ht : t ∈ tl) :
    t ∈ toDeleteOf records newContents := by
  apply List.mem_append_left
  apply mem_diffDupes.mpr
  exact ⟨c, hc, by rw [hg, List.drop_one, List.tail_cons]; exact ht⟩

theorem fresh_not_deleted {records : List RecordResponse} {newContents : List String}
    {mkId : String → String} (hfresh : ∀ c, mkId c ∉ records.map (·.id)) (c : String) :
    mkId c ∉ (toDeleteOf records newContents).map (·.id) := by
  intro h
  obtain ⟨r, hr, hrid⟩ := List.mem_map.mp h
  exact hfresh c (List.mem_map.mpr ⟨r, toDelete_subset hr, hrid⟩)

theorem group_mem_toDelete_of_not_desired {records : List RecordResponse}
    {newContents : List String} {c : String} (hc : c ∉ dedupeContents newContents)
    {r : RecordResponse} (hr : r ∈ groupRecordsByContent records c) :
    r ∈ toDeleteOf records newContents := by
  apply List.mem_append_right
  apply mem_diffSurplus.mpr
  refine ⟨c, ?_, ?_, hr⟩
  · apply mem_mapKeys.mpr
    apply group_ne_nil_iff.mp
    intro hnil
    rw [hnil] at hr
    exact List.not_mem_nil r hr
  · rw [show buildContentSet (dedupeContents newContents) = dedupeContents newContents
      from rfl]
    exact Bool.eq_false_iff.mpr (fun h => hc (List.elem_iff.mp h))

theorem applyEvs_ne_nil_of_all_creates {mkId : String → String} {evs : List Ev}
    {recs : List RecordResponse} (hall : ∀ e ∈ evs, e.isCreate = true)
    (hrecs : recs ≠ []) : applyEvs mkId recs evs ≠ [] := by
  obtain ⟨r, rs, rfl⟩ : ∃ r rs, recs = r :: rs := by
    cases recs with
    | nil => exact absurd rfl hrecs
    | cons r rs => exact ⟨r, rs, rfl⟩
  have hmem : r ∈ applyEvs mkId (r :: rs) evs := by
    apply mem_applyEvs_of_id_not_deleted (List.mem_cons_self _ _)
    intro i b hib
    have := hall _ hib
    simp [Ev.isCreate] at this
  exact fun hnil => (List.not_mem_nil r) (hnil ▸ hmem)

theorem state_after_creates_ne_nil {mkId : String → String} {cs : List String}
    {k : ℕ} (hk : 1 ≤ k) (hlt : k ≤ cs.length) :
    applyEvs mkId [] ((cs.map (fun c => Ev.create c true)).take k) ≠ [] := by
  rw [← List.map_take, applyEvs_creates]
  intro hnil
  have := congrArg List.length hnil
  simp only [List.nil_append, List.length_map, List.length_take, List.length_nil] at this
  omega

/-- In the main branch, some record with a desired content survives the delete
phase: either the first existing record with that content is kept, or a freshly
created record carries it. -/
theorem survivor_exists {records : List RecordResponse} {newContents : List String}
    {mkId : String → String} (hids : (records.map (·.id)).Nodup)
    (hfresh : ∀ c, mkId c ∉ records.map (·.id))
    (hdes : dedupeContents newContents ≠ []) :
    ∃ s : RecordResponse,
      s ∈ records ++ (missingOf records newContents).map
        (fun c => (⟨mkId c, c⟩ : RecordResponse)) ∧
      s.id ∉ (toDeleteOf records newContents).map (·.id) := by
  obtain ⟨d0, hd0⟩ := List.exists_mem_of_ne_nil _ hdes
  cases hg : groupRecordsByContent records d0 with
  | nil =>
    refine ⟨⟨mkId d0, d0⟩, ?_, fresh_not_deleted hfresh d0⟩
    exact List.mem_append_right _
      (List.mem_map.mpr ⟨d0, mem_missingOf.mpr ⟨hd0, hg⟩, rfl⟩)
  | cons hd tl =>
    have hhd : hd ∈ groupRecordsByContent records d0 := by
      rw [hg]; exact List.mem_cons_self hd tl
    exact ⟨hd, List.mem_append_left _ (mem_group.mp hhd).1,
      head_not_deleted hids hd0 hg⟩

theorem checkIPsLoop_eq_all (H : String → Bool) :
    ∀ (ips : List String), checkIPsLoop H ips = ips.all H
  | [] => rfl
  | ip :: rest => by
    rw [checkIPsLoop, List.all_cons]
    by_cases h : H ip = true
    · simp [h, checkIPsLoop_eq_all H rest]
    · simp [eq_false_of_ne_true h]

theorem checkPriorityLevel_eq_spec (H : String → Bool) (l : PriorityLevel) :
    checkPriorityLevel H l = levelHealthySpec H l := by
  rw [checkPriorityLevel, levelHealthySpec]
  cases hips : l.ips with
  | nil => simp
  | cons ip rest => simp [checkIPsLoop_eq_all]

theorem findPriorityLevel_eq_find? :
    ∀ (levels : List PriorityLevel) (p : Int),
      findPriorityLevel levels p = levels.find? (fun l => l.priority == p)
  | [], _ => rfl
  | l :: ls, p => by
    rw [findPriorityLevel, List.find?]
    by_cases h : l.priority = p
    · simp [h]
    · simp only [h, if_false]
      rw [findPriorityLevel_eq_find? ls p]
      have : (l.priority == p) = false := by simp [h]
      simp [this]

theorem selectLoop_skip_mode (pcur : Int) (H : String → Bool) :
    ∀ (levels : List PriorityLevel),
      selectLoop false true pcur H levels =
        ((levels.filter (fun l => decide (l.priority ≤ pcur))).find?
          (levelHealthySpec H)).map (fun l => (l.priority, l.ips))
  | [] => rfl
  | l :: ls => by
    rw [selectLoop]
    by_cases hskip : pcur < l.priority
    · have h1 : ((!false && true) && decide (pcur < l.priority)) = true := by
        simp only [Bool.not_false, Bool.true_and]
        exact decide_eq_true hskip
      have h2 : ¬((fun l => decide (l.priority ≤ pcur)) l = true) := by
        simp only [decide_eq_true_eq]
        omega
      rw [if_pos h1,
        List.filter_cons_of_neg (p := fun l => decide (l.priority ≤ pcur)) (a := l) h2]
      exact selectLoop_skip_mode pcur H ls
    · have h1 : ¬(((!false && true) && decide (pcur < l.priority)) = true) := by
        simp only [Bool.not_false, Bool.true_and, decide_eq_true_eq]
        omega
      have h2 : (fun l => decide (l.priority ≤ pcur)) l = true := by
        simp only [decide_eq_true_eq]
        omega
      rw [if_neg h1,
        List.filter_cons_of_pos (p := fun l => decide (l.priority ≤ pcur)) (a := l) h2]
      by_cases hh : checkPriorityLevel H l = true
      · have hh' : levelHealthySpec H l = true := checkPriorityLevel_eq_spec H l ▸ hh
        rw [if_pos hh, List.find?_cons_of_pos _ hh']
        rfl
      · have hh' : levelHealthySpec H l = false :=
          eq_false_of_ne_true (checkPriorityLevel_eq_spec H l ▸ hh)
        rw [if_neg hh, List.find?_cons_of_neg _ (by simp [hh'])]
        exact selectLoop_skip_mode pcur H ls

theorem selectLoop_plain_mode (rtp pset : Bool) (pcur : Int) (H : String → Bool)
    (hmode : (!rtp && pset) = false) :
    ∀ (levels : List PriorityLevel),
      selectLoop rtp pset pcur H levels =
        (levels.find? (levelHealthySpec H)).map (fun l => (l.priority, l.ips))
  | [] => rfl
  | l :: ls => by
    rw [selectLoop]
    have h1 : ((!rtp && pset) && decide (pcur < l.priority)) = false := by
      rw [hmode, Bool.false_and]
    rw [if_neg (by simp [h1])]
    by_cases hh : checkPriorityLevel H l = true
    · have hh' : levelHealthySpec H l = true := checkPriorityLevel_eq_spec H l ▸ hh
      rw [if_pos hh, List.find?_cons_of_pos _ hh']
      rfl
    · have hh' : levelHealthySpec H l = false :=
        eq_false_of_ne_true (checkPriorityLevel_eq_spec H l ▸ hh)
      rw [if_neg hh, List.find?_cons_of_neg _ (by simp [hh'])]
      exact selectLoop_plain_mode rtp pset pcur H hmode ls

theorem dedupe_eq_nil_of_all_empty {vs : List String} (h : ∀ c ∈ vs, c = "") :
    dedupeContents vs = [] := by
  cases hd : dedupeContents vs with
  | nil => rfl
  | cons c rest =>
    have hc : c ∈ dedupeContents vs := by rw [hd]; exact List.mem_cons_self _ _
    have hm := mem_dedupeContents.mp hc
    exact absurd (h c hm.1) hm.2

/-- When the de-duplicated desired set is empty, the call creates nothing,
deletes every existing record (all deletes accepted), and succeeds, leaving
the record set empty. -/
theorem replace_desired_nil (createOk : String → Bool) (mkId : String → String)
    (records : List RecordResponse) {newContents : List String}
    (hlen : ¬newContents.length = 0) (hdes : dedupeContents newContents = []) :
    (ReplaceRecords createOk (fun _ => true) records newContents).2 = .ok () ∧
    applyEvs mkId records
      (ReplaceRecords createOk (fun _ => true) records newContents).1 = [] ∧
    (∀ e ∈ (ReplaceRecords createOk (fun _ => true) records newContents).1,
      ∃ r ∈ records, e = Ev.delete r.id true) := by
  by_cases hr0 : records.length = 0
  · have hrecs : records = [] := List.length_eq_zero.mp hr0
    rw [replace_emptyRecords createOk _ hlen hr0, hdes]
    refine ⟨rfl, ?_, ?_⟩
    · rw [show (createRecords createOk ([] : List String)).1 = [] from rfl, hrecs]
      rfl
    · intro e he
      rw [show (createRecords createOk ([] : List String)).1 = [] from rfl] at he
      exact absurd he (List.not_mem_nil e)
  · have hmiss : missingOf records newContents = [] := by
      rw [missingOf, hdes]
      rfl
    have heq : createRecords createOk (missingOf records newContents) =
        ([], .ok ()) := by
      rw [hmiss]
      rfl
    have hdelsub : ∀ r ∈ records, r ∈ toDeleteOf records newContents := by
      intro r hr
      apply group_mem_toDelete_of_not_desired (c := r.content)
      · rw [hdes]
        exact List.not_mem_nil _
      · exact mem_group.mpr ⟨hr, rfl⟩
    have hdelne : ¬(toDeleteOf records newContents).length = 0 := by
      intro h0
      have hnil : toDeleteOf records newContents = [] := List.length_eq_zero.mp h0
      obtain ⟨r, hr⟩ := List.exists_mem_of_ne_nil records
        (fun h => hr0 (by rw [h]; rfl))
      have hmem := hdelsub r hr
      rw [hnil] at hmem
      exact List.not_mem_nil _ hmem
    rw [replace_main_okDelete createOk _ hlen hr0 heq hdelne]
    have hdall : deleteRecords (fun _ => true) (toDeleteOf records newContents) =
        ((toDeleteOf records newContents).map (fun r => Ev.delete r.id true),
         .ok ()) :=
      deleteRecords_of_all_ok (fun r _ => rfl)
    rw [hdall]
    refine ⟨rfl, ?_, ?_⟩
    · simp only [List.nil_append]
      rw [applyEvs_deletes]
      apply List.filter_eq_nil_iff.mpr
      intro r hr
      have hmem := hdelsub r hr
      have hid : r.id ∈ (toDeleteOf records newContents).map (·.id) :=
        List.mem_map.mpr ⟨r, hmem, rfl⟩
      have hcon : (List.map (fun x => x.id) (toDeleteOf records newContents)).contains
          r.id = true := List.elem_iff.mpr hid
      rw [hcon]
      simp
    · intro e he
      simp only [List.nil_append] at he
      obtain ⟨r, hr, rfl⟩ := List.mem_map.mp he
      exact ⟨r, toDelete_subset hr, rfl⟩

/-! ### The final record set of a fully successful call -/

/-- With every API call accepted, the state after `ReplaceRecords` is the
kept current records (those whose id is not queued for deletion) followed by
the freshly created records, one per missing content. -/
theorem final_state_alltrue {records : List RecordResponse} {newContents : List String}
    (mkId : String → String) (hlen : ¬newContents.length = 0)
    (hr0 : ¬records.length = 0) (hfresh : ∀ c, mkId c ∉ records.map (·.id)) :
    applyEvs mkId records
      (ReplaceRecords (fun _ => true) (fun _ => true) records newContents).1 =
      records.filter
        (fun x => !(((toDeleteOf records newContents).map (·.id)).contains x.id)) ++
      (missingOf records newContents).map (fun c => (⟨mkId c, c⟩ : RecordResponse)) := by
  have heq : createRecords (fun _ => true) (missingOf records newContents) =
      ((missingOf records newContents).map (fun c => Ev.create c true), .ok ()) :=
    createRecords_of_all_ok (fun c _ => rfl)
  by_cases hdel : (toDeleteOf records newContents).length = 0
  · rw [replace_main_okNoDelete _ _ hlen hr0 heq hdel, applyEvs_creates]
    have hnil : toDeleteOf records newContents = [] := List.length_eq_zero.mp hdel
    rw [hnil]
    congr 1
    exact (List.filter_eq_self.mpr (fun a _ => rfl)).symm
  · rw [replace_main_okDelete _ _ hlen hr0 heq hdel,
      deleteRecords_of_all_ok (fun r _ => rfl)]
    rw [applyEvs_append, applyEvs_creates, applyEvs_deletes, List.filter_append]
    congr 1
    apply List.filter_eq_self.mpr
    intro a ha
    obtain ⟨c, hc, rfl⟩ := List.mem_map.mp ha
    have hnot : mkId c ∉ (toDeleteOf records newContents).map (·.id) :=
      fresh_not_deleted hfresh c
    have hcon : ((toDeleteOf records newContents).map (·.id)).contains
        (mkId c) = false :=
      Bool.eq_false_iff.mpr (fun h => hnot (List.elem_iff.mp h))
    show (!(((toDeleteOf records newContents).map (·.id)).contains (mkId c))) = true
    rw [hcon]
    rfl

/-- With every API call accepted, the final record set carries each desired
content exactly once and nothing else (main branch: current records
non-empty). -/
theorem final_countP {records : List RecordResponse} {newContents : List String}
    (mkId : String → String) (hlen : ¬newContents.length = 0)
    (hr0 : ¬records.length = 0) (hids : (records.map (·.id)).Nodup)
    (hfresh : ∀ c, mkId c ∉ records.map (·.id)) (c : String) :
    (applyEvs mkId records
      (ReplaceRecords (fun _ => true) (fun _ => true) records newContents).1).countP
        (fun r => r.content == c) =
      if c ∈ dedupeContents newContents then 1 else 0 := by
  rw [final_state_alltrue mkId hlen hr0 hfresh, List.countP_append]
  have hcre : ((missingOf records newContents).map
      (fun c' => (⟨mkId c', c'⟩ : RecordResponse))).countP (fun r => r.content == c) =
      (missingOf records newContents).countP (fun d => d == c) := by
    rw [List.countP_map]
    rfl
  have hrec : (records.filter
      (fun x => !(((toDeleteOf records newContents).map (·.id)).contains x.id))).countP
        (fun r => r.content == c) =
      (groupRecordsByContent records c).countP
        (fun x => !(((toDeleteOf records newContents).map (·.id)).contains x.id)) := by
    rw [List.countP_filter, groupRecordsByContent_eval, List.countP_filter]
    apply List.countP_congr
    intro a _
    rw [Bool.and_comm]
  rw [hrec, hcre]
  have hmiss : missingOf records newContents =
      (dedupeContents newContents).filter
        (fun d => (groupRecordsByContent records d).isEmpty) := by
    rw [missingOf]
    exact diffMissing_eq_filter _ _
  rw [hmiss, List.countP_filter]
  by_cases hc : c ∈ dedupeContents newContents
  · rw [if_pos hc]
    cases hg : groupRecordsByContent records c with
    | nil =>
      have hmisscnt : (dedupeContents newContents).countP
          (fun d => (d == c) && (groupRecordsByContent records d).isEmpty) =
          (dedupeContents newContents).countP (fun d => d == c) := by
        apply List.countP_congr
        intro d _
        constructor
        · intro h
          exact (Bool.and_eq_true _ _ |>.mp h).1
        · intro h
          have hd : d = c := by simpa using h
          subst hd
          rw [h, hg]
          rfl
      rw [List.countP_nil, hmisscnt]
      have : (dedupeContents newContents).countP (fun d => d == c) =
          (dedupeContents newContents).count c :=
        rfl
      rw [this, List.count_eq_one_of_mem (nodup_dedupeContents newContents) hc]
    | cons hd tl =>
      have hkeephd : (!(((toDeleteOf records newContents).map (·.id)).contains
          hd.id)) = true := by
        have hnot := head_not_deleted hids hc hg
        have hcon : ((toDeleteOf records newContents).map (·.id)).contains
            hd.id = false :=
          Bool.eq_false_iff.mpr (fun h => hnot (List.elem_iff.mp h))
        rw [hcon]
        rfl
      have htl : tl.countP
          (fun x => !(((toDeleteOf records newContents).map (·.id)).contains x.id))
            = 0 := by
        apply List.countP_eq_zero.mpr
        intro t ht
        have hmem := tail_mem_toDelete hc hg ht
        have hid : t.id ∈ (toDeleteOf records newContents).map (·.id) :=
          List.mem_map.mpr ⟨t, hmem, rfl⟩
        have hcon : ((toDeleteOf records newContents).map (·.id)).contains
            t.id = true := List.elem_iff.mpr hid
        rw [hcon]
        simp
      have hmisscnt : (dedupeContents newContents).countP
          (fun d => (d == c) && (groupRecordsByContent records d).isEmpty) = 0 := by
        apply List.countP_eq_zero.mpr
        intro d _ habs
        obtain ⟨h1, h2⟩ := Bool.and_eq_true _ _ |>.mp habs
        have hd' : d = c := by simpa using h1
        subst hd'
        rw [hg] at h2
        exact absurd h2 (by simp)
      rw [List.countP_cons, htl, if_pos hkeephd, hmisscnt]
  · rw [if_neg hc]
    have hgrp : (groupRecordsByContent records c).countP
        (fun x => !(((toDeleteOf records newContents).map (·.id)).contains x.id))
          = 0 := by
      apply List.countP_eq_zero.mpr
      intro r hrg
      have hmem := group_mem_toDelete_of_not_desired hc hrg
      have hid : r.id ∈ (toDeleteOf records newContents).map (·.id) :=
        List.mem_map.mpr ⟨r, hmem, rfl⟩
      have hcon : ((toDeleteOf records newContents).map (·.id)).contains
          r.id = true := List.elem_iff.mpr hid
      rw [hcon]
      simp
    have hmisscnt : (dedupeContents newContents).countP
        (fun d => (d == c) && (groupRecordsByContent records d).isEmpty) = 0 := by
      apply List.countP_eq_zero.mpr
      intro d hd habs
      obtain ⟨h1, _⟩ := Bool.and_eq_true _ _ |>.mp habs
      have hd' : d = c := by simpa using h1
      subst hd'
      exact hc hd
    rw [hgrp, hmisscnt]

/-- When the current records already carry exactly the desired contents, one
record each, `ReplaceRecords` issues nothing and succeeds. -/
theorem replace_noop (createOk deleteOk : String → Bool)
    {records : List RecordResponse} {newContents : List String}
    (hne : records ≠ []) (hnodup : (records.map (·.content)).Nodup)
    (hset : ∀ c, c ∈ records.map (·.content) ↔ c ∈ dedupeContents newContents) :
    ReplaceRecords createOk deleteOk records newContents = ([], .ok ()) := by
  obtain ⟨r0, hr0m⟩ := List.exists_mem_of_ne_nil records hne
  have hc0 : r0.content ∈ dedupeContents newContents :=
    (hset _).mp (List.mem_map.mpr ⟨r0, hr0m, rfl⟩)
  have hlen : ¬newContents.length = 0 := by
    intro h
    rw [List.length_eq_zero.mp h] at hc0
    exact List.not_mem_nil _ hc0
  have hr0 : ¬records.length = 0 := fun h => hne (List.length_eq_zero.mp h)
  have hgrouplen : ∀ c, (groupRecordsByContent records c).length ≤ 1 := by
    intro c
    rw [groupRecordsByContent_eval, ← List.countP_eq_length_filter]
    have h1 : records.countP (fun r => r.content == c) =
        (records.map (·.content)).count c := by
      show _ = (records.map (·.content)).countP (fun d => d == c)
      rw [List.countP_map]
      rfl
    rw [h1]
    exact List.nodup_iff_count_le_one.mp hnodup c
  have hmiss : missingOf records newContents = [] := by
    rw [missingOf]
    show (diffDesiredLoop (groupRecordsByContent records)
      (dedupeContents newContents)).1 = []
    rw [diffMissing_eq_filter]
    apply List.filter_eq_nil_iff.mpr
    intro d hd
    have hgne : groupRecordsByContent records d ≠ [] :=
      group_ne_nil_iff.mpr ((hset d).mpr hd)
    simp [List.isEmpty_iff, hgne]
  have heq : createRecords createOk (missingOf records newContents) =
      ([], .ok ()) := by
    rw [hmiss]
    rfl
  have hdupes : (diffDesiredLoop (groupRecordsByContent records)
      (dedupeContents newContents)).2 = [] := by
    rw [List.eq_nil_iff_forall_not_mem]
    intro r hr
    obtain ⟨c, _, hdrop⟩ := mem_diffDupes.mp hr
    rw [List.drop_eq_nil_of_le (hgrouplen c)] at hdrop
    exact List.not_mem_nil _ hdrop
  have hsurp : diffSurplusLoop (buildContentSet (dedupeContents newContents))
      (groupRecordsByContent records) (mapKeys records) = [] := by
    rw [List.eq_nil_iff_forall_not_mem]
    intro r hr
    obtain ⟨c, hck, hcont, _⟩ := mem_diffSurplus.mp hr
    have hcd : c ∈ dedupeContents newContents := (hset c).mp (mem_mapKeys.mp hck)
    have hT : (dedupeContents newContents).contains c = true := List.elem_iff.mpr hcd
    rw [show buildContentSet (dedupeContents newContents) =
      dedupeContents newContents from rfl] at hcont
    exact absurd (hT.symm.trans hcont) (by simp)
  have hdel : (toDeleteOf records newContents).length = 0 := by
    have hnil : toDeleteOf records newContents = [] := by
      show (diffDesiredLoop (groupRecordsByContent records)
          (dedupeContents newContents)).2 ++
        diffSurplusLoop (buildContentSet (dedupeContents newContents))
          (groupRecordsByContent records) (mapKeys records) = []
      rw [hdupes, hsurp]
      rfl
    rw [hnil]
    rfl
  rw [replace_main_okNoDelete createOk deleteOk hlen hr0 heq hdel]

/-! ### Normalization lemmas (config.go) -/

theorem NormalizePriorityLevels_single (p : Int) (ips : List String)
    (hips : 0 < ips.length) :
    NormalizePriorityLevels [⟨p, ips⟩] =
      if uniqueStrings ips = [] then [] else [⟨p, uniqueStrings ips⟩] := by
  have hne : ¬ips.length = 0 := by omega
  have hempty : ips.isEmpty = false := by
    cases ips with
    | nil => exact absurd rfl hne
    | cons a l => rfl
  rw [NormalizePriorityLevels, if_neg (by simp)]
  rw [priorityOrder, if_neg hne, if_neg (by simp)]
  rw [priorityOrder, buildNormalized, buildNormalized]
  have hmerged : mergedAt [⟨p, ips⟩] p = ips := by
    rw [mergedAt, List.filter_cons_of_pos (by simp [hempty]), List.filter_nil]
    simp
  rw [hmerged]
  by_cases hu : uniqueStrings ips = []
  · rw [if_pos hu, if_pos (by rw [hu]; rfl)]
  · rw [if_neg hu, if_neg (fun hc => hu (List.length_eq_zero.mp hc))]

theorem NormalizePriorityLevels_pair (p q : Int) (ips1 ips2 : List String)
    (hpq : p ≠ q) (h1 : 0 < ips1.length) (h2 : 0 < ips2.length) :
    NormalizePriorityLevels [⟨p, ips1⟩, ⟨q, ips2⟩] =
      (if uniqueStrings ips1 = [] then [] else [⟨p, uniqueStrings ips1⟩]) ++
      (if uniqueStrings ips2 = [] then [] else [⟨q, uniqueStrings ips2⟩]) := by
  have hne1 : ¬ips1.length = 0 := by omega
  have hne2 : ¬ips2.length = 0 := by omega
  have hempty1 : ips1.isEmpty = false := by
    cases ips1 with
    | nil => exact absurd rfl hne1
    | cons a l => rfl
  have hempty2 : ips2.isEmpty = false := by
    cases ips2 with
    | nil => exact absurd rfl hne2
    | cons a l => rfl
  rw [NormalizePriorityLevels, if_neg (by simp)]
  rw [priorityOrder, if_neg hne1, if_neg (by simp)]
  rw [priorityOrder, if_neg hne2, if_neg (by simp [hpq, Ne.symm hpq]),
    priorityOrder]
  rw [buildNormalized, buildNormalized, buildNormalized]
  have hmerged1 : mergedAt [⟨p, ips1⟩, ⟨q, ips2⟩] p = ips1 := by
    rw [mergedAt, List.filter_cons_of_pos (by simp [hempty1]),
      List.filter_cons_of_neg (by simp [Ne.symm hpq]), List.filter_nil]
    simp
  have hmerged2 : mergedAt [⟨p, ips1⟩, ⟨q, ips2⟩] q = ips2 := by
    rw [mergedAt, List.filter_cons_of_neg (by simp [hpq]),
      List.filter_cons_of_pos (by simp [hempty2]), List.filter_nil]
    simp
  rw [hmerged1, hmerged2]
  by_cases hu1 : uniqueStrings ips1 = [] <;> by_cases hu2 : uniqueStrings ips2 = []
  · rw [if_pos (by rw [hu1]; rfl), if_pos (by rw [hu2]; rfl),
      if_pos hu1, if_pos hu2]
    rfl
  · rw [if_pos (by rw [hu1]; rfl),
      if_neg (fun hc => hu2 (List.length_eq_zero.mp hc)),
      if_pos hu1, if_neg hu2]
    rfl
  · rw [if_neg (fun hc => hu1 (List.length_eq_zero.mp hc)),
      if_pos (by rw [hu2]; rfl), if_neg hu1, if_pos hu2]
    rfl
  · rw [if_neg (fun hc => hu1 (List.length_eq_zero.mp hc)),
      if_neg (fun hc => hu2 (List.length_eq_zero.mp hc)),
      if_neg hu1, if_neg hu2]
    rfl

/-! ### Claim theorems -/

/-- Claim C1. In every `ReplaceRecords` call with a non-empty, de-duplicated
desired content set and any current record set (whose provider ids are
distinct, with created records receiving fresh ids), every create is issued
before any delete — the event trace is a block of creates followed by a block
of deletes — and the record set is non-empty at every intermediate point of
the call: at every cut strictly inside the trace and, whenever the current
record set is non-empty, at every cut whatsoever (the kept records plus the
records created so far are always present). -/
theorem C1_replaceRecords_create_before_delete_nonempty
    (createOk deleteOk : String → Bool) (mkId : String → String)
    (records : List RecordResponse) (newContents : List String)
    (hne : newContents ≠ [])
    (hdd : dedupeContents newContents = newContents)
    (hids : (records.map (·.id)).Nodup)
    (hfresh : ∀ c, mkId c ∉ records.map (·.id)) :
    (∃ cs ds, (ReplaceRecords createOk deleteOk records newContents).1 = cs ++ ds ∧
        (∀ e ∈ cs, e.isCreate = true) ∧ (∀ e ∈ ds, e.isDelete = true)) ∧
    (∀ k, 1 ≤ k → k < (ReplaceRecords createOk deleteOk records newContents).1.length →
        applyEvs mkId records
          ((ReplaceRecords createOk deleteOk records newContents).1.take k) ≠ []) ∧
    (records ≠ [] → ∀ k,
        applyEvs mkId records
          ((ReplaceRecords createOk deleteOk records newContents).1.take k) ≠ []) := by
  have hlen : ¬newContents.length = 0 := fun h => hne (List.length_eq_zero.mp h)
  have hdes : dedupeContents newContents ≠ [] := by rw [hdd]; exact hne
  by_cases hr0 : records.length = 0
  · have hrecs : records = [] := List.length_eq_zero.mp hr0
    subst hrecs
    rw [replace_emptyRecords createOk deleteOk hlen hr0]
    have hall : ∀ e ∈ (createRecords createOk (dedupeContents newContents)).1,
        e.isCreate = true := by
      intro e he
      obtain ⟨c, b, _, rfl⟩ := createRecords_events he
      rfl
    refine ⟨⟨_, [], (List.append_nil _).symm, hall, by simp⟩, ?_, ?_⟩
    · intro k hk hlt
      rcases createRecords_cases createOk (dedupeContents newContents) with
        ⟨_, heq⟩ | ⟨p, c, q, hcs, _, _, heq⟩
      · rw [heq] at hlt ⊢
        simp only [List.length_map] at hlt
        exact state_after_creates_ne_nil hk (le_of_lt hlt)
      · rw [heq] at hlt ⊢
        simp only [List.length_append, List.length_map, List.length_cons,
          List.length_nil] at hlt
        have hkp : k ≤ p.length := by omega
        rw [List.take_append_eq_append_take]
        have hz : k - (p.map (fun x => Ev.create x true)).length = 0 := by
          simp only [List.length_map]; omega
        rw [hz, List.take_zero, List.append_nil]
        exact state_after_creates_ne_nil hk hkp
    · intro habs
      exact absurd rfl habs
  · have hrne : records ≠ [] := fun h => hr0 (by rw [h]; rfl)
    rcases createRecords_cases createOk (missingOf records newContents) with
      ⟨hallok, heq⟩ | ⟨p, c, q, hcs, hp, hcfail, heq⟩
    · by_cases hdel : (toDeleteOf records newContents).length = 0
      · rw [replace_main_okNoDelete createOk deleteOk hlen hr0 heq hdel]
        have hallc : ∀ e ∈ (missingOf records newContents).map
            (fun c => Ev.create c true), e.isCreate = true := by
          intro e he
          obtain ⟨c', _, rfl⟩ := List.mem_map.mp he
          rfl
        have hmain : ∀ k, applyEvs mkId records
            (((missingOf records newContents).map (fun c => Ev.create c true)).take k)
              ≠ [] := by
          intro k
          apply applyEvs_ne_nil_of_all_creates _ hrne
          intro e he
          exact hallc e (List.take_subset _ _ he)
        have htr : (createRecords createOk (missingOf records newContents)).1 =
            (missingOf records newContents).map (fun c => Ev.create c true) := by
          rw [heq]
        rw [htr] at *
        exact ⟨⟨_, [], (List.append_nil _).symm, hallc, by simp⟩,
          fun k _ _ => hmain k, fun _ k => hmain k⟩
      · rw [replace_main_okDelete createOk deleteOk hlen hr0 heq hdel]
        have htr : (createRecords createOk (missingOf records newContents)).1 =
            (missingOf records newContents).map (fun c => Ev.create c true) := by
          rw [heq]
        rw [htr] at *
        have hallc : ∀ e ∈ (missingOf records newContents).map
            (fun c => Ev.create c true), e.isCreate = true := by
          intro e he
          obtain ⟨c', _, rfl⟩ := List.mem_map.mp he
          rfl
        have halld : ∀ e ∈ (deleteRecords deleteOk (toDeleteOf records newContents)).1,
            e.isDelete = true := by
          intro e he
          obtain ⟨r, b, _, rfl⟩ := deleteRecords_events he
          rfl
        have hmain : ∀ k, applyEvs mkId records
            (((missingOf records newContents).map (fun c => Ev.create c true) ++
              (deleteRecords deleteOk (toDeleteOf records newContents)).1).take k)
              ≠ [] := by
          intro k
          rw [List.take_append_eq_append_take]
          by_cases hk1 : k ≤
              ((missingOf records newContents).map (fun c => Ev.create c true)).length
          · have hz : k -
                ((missingOf records newContents).map (fun c => Ev.create c true)).length
                  = 0 := by omega
            rw [hz, List.take_zero, List.append_nil]
            apply applyEvs_ne_nil_of_all_creates _ hrne
            intro e he
            exact hallc e (List.take_subset _ _ he)
          · have hfull :
                ((missingOf records newContents).map (fun c => Ev.create c true)).take k
                  = (missingOf records newContents).map (fun c => Ev.create c true) :=
              List.take_of_length_le (by omega)
            rw [hfull, applyEvs_append, applyEvs_creates]
            obtain ⟨s, hsmem, hsid⟩ := survivor_exists hids hfresh hdes
            have hsstate : s ∈ applyEvs mkId
                (records ++ (missingOf records newContents).map
                  (fun c => (⟨mkId c, c⟩ : RecordResponse)))
                ((deleteRecords deleteOk (toDeleteOf records newContents)).1.take
                  (k - ((missingOf records newContents).map
                    (fun c => Ev.create c true)).length)) := by
              apply mem_applyEvs_of_id_not_deleted hsmem
              intro i b hib
              have hib2 := List.take_subset _ _ hib
              obtain ⟨r, b2, hrdel, heq2⟩ := deleteRecords_events hib2
              injection heq2 with hi hb
              intro hieq
              apply hsid
              exact List.mem_map.mpr ⟨r, hrdel, by rw [← hi]; exact hieq⟩
            exact fun hnil => (List.not_mem_nil s) (hnil ▸ hsstate)
        exact ⟨⟨_, _, rfl, hallc, halld⟩, fun k _ _ => hmain k, fun _ k => hmain k⟩
    · rw [replace_main_createError createOk deleteOk hlen hr0
        (by rw [heq] : createRecords createOk (missingOf records newContents) =
          (p.map (fun x => Ev.create x true) ++ [Ev.create c false],
           .error (.createFailed c)))]
      have hall : ∀ e ∈ p.map (fun x => Ev.create x true) ++ [Ev.create c false],
          e.isCreate = true := by
        intro e he
        rcases List.mem_append.mp he with h | h
        · obtain ⟨c', _, rfl⟩ := List.mem_map.mp h
          rfl
        · rw [List.mem_singleton.mp h]
          rfl
      have hmain : ∀ k, applyEvs mkId records
          ((p.map (fun x => Ev.create x true) ++ [Ev.create c false]).take k) ≠ [] := by
        intro k
        apply applyEvs_ne_nil_of_all_creates _ hrne
        intro e he
        exact hall e (List.take_subset _ _ he)
      exact ⟨⟨_, [], (List.append_nil _).symm, hall, by simp⟩,
        fun k _ _ => hmain k, fun _ k => hmain k⟩

/-- Claim C2. The priority selector behaves exactly as the spec's §4.5
algorithm: a level is healthy iff it has at least one IP and all its IPs are
healthy; when `returnToPriority` is false and the current priority is set, the
current level is kept when it exists and is healthy, and otherwise the scan
skips levels above the current priority; the first healthy level in list
order (descending priority, per normalization) is returned, and no target
when none is healthy. -/
theorem C2_selectPriorityLevel_matches_spec (rtp : Bool) (H : String → Bool)
    (levels : List PriorityLevel) (pcur : Int) (pset : Bool) :
    selectPriorityLevel rtp H levels pcur pset =
      selectPriorityLevelSpec rtp H levels pcur pset := by
  cases rtp with
  | false =>
    cases pset with
    | true =>
      rw [selectPriorityLevel, selectPriorityLevelSpec]
      rw [if_pos (show (!false && true) = true from rfl),
        if_pos (show (false = false ∧ true = true) from ⟨rfl, rfl⟩),
        findPriorityLevel_eq_find?]
      cases hf : levels.find? (fun l => l.priority == pcur) with
      | none =>
        exact selectLoop_skip_mode pcur H levels
      | some l =>
        dsimp only
        by_cases hh : checkPriorityLevel H l = true
        · rw [if_pos hh, if_pos (checkPriorityLevel_eq_spec H l ▸ hh)]
        · rw [if_neg hh,
            if_neg (show ¬(levelHealthySpec H l = true) from
              fun hc => hh (by rw [checkPriorityLevel_eq_spec]; exact hc))]
          exact selectLoop_skip_mode pcur H levels
    | false =>
      rw [selectPriorityLevel, selectPriorityLevelSpec]
      rw [if_neg (show ¬((!false && false) = true) from by simp),
        if_neg (show ¬(false = false ∧ false = true) from by simp)]
      exact selectLoop_plain_mode false false pcur H (by simp) levels
  | true =>
    cases pset with
    | true =>
      rw [selectPriorityLevel, selectPriorityLevelSpec]
      rw [if_neg (show ¬((!true && true) = true) from by simp),
        if_neg (show ¬(true = false ∧ true = true) from by simp)]
      exact selectLoop_plain_mode true true pcur H (by simp) levels
    | false =>
      rw [selectPriorityLevel, selectPriorityLevelSpec]
      rw [if_neg (show ¬((!true && false) = true) from by simp),
        if_neg (show ¬(true = false ∧ false = true) from by simp)]
      exact selectLoop_plain_mode true false pcur H (by simp) levels

/-- Claim C3. The HTTP/HTTPS health probe reports healthy exactly on response
status codes in `[200, 400)`; a transport error (or timeout) is always
reported as unhealthy. -/
theorem C3_httpCheck_healthy_iff_status_200_to_400 :
    (∀ s : Int, httpCheckClassify (.response s) = .ok () ↔ 200 ≤ s ∧ s < 400) ∧
    httpCheckClassify .transportError ≠ .ok () := by
  constructor
  · intro s
    by_cases h : s < 200 ∨ 400 ≤ s
    · rw [httpCheckClassify, if_pos h]
      constructor
      · intro he; exact absurd he (by simp)
      · rintro ⟨h1, h2⟩; omega
    · rw [httpCheckClassify, if_neg h]
      push_neg at h
      exact ⟨fun _ => ⟨by omega, by omega⟩, fun _ => rfl⟩
  · intro h
    exact absurd h (by simp [httpCheckClassify])

/-- Counterexample for C8: a transition to the maximum priority
(`isPriorityIP = true`) with `returnToPriority = false` is colored
`"warning"`, not `"good"` as the claim states. -/
theorem C8_counterexample_good_requires_returnToPriority :
    isPriorityIPFlag 100 100 = true ∧
    slackColor false (isPriorityIPFlag 100 100) (isFailoverIPFlag 100 100) ≠ "good" := by
  constructor
  · rfl
  · intro h
    exact absurd h (by decide)

/-- Claim C8, amended. For the flags `checkOrigin` computes from
`selectedPriority ≤ maxPriority`, the Slack color is `"good"` iff
`returnToPriority` is set *and* the new priority is the maximum, `"danger"`
iff the new priority is below the maximum, and `"warning"` otherwise (i.e. a
return to the maximum priority with `returnToPriority = false`). -/
theorem C8_slackColor_characterization (rtp : Bool) (s m : Int) (h : s ≤ m) :
    slackColor rtp (isPriorityIPFlag s m) (isFailoverIPFlag s m) =
      if rtp = true ∧ s = m then "good" else if s < m then "danger" else "warning" := by
  by_cases he : s = m
  · subst he
    cases rtp <;> simp [slackColor, isPriorityIPFlag, isFailoverIPFlag]
  · have hlt : s < m := lt_of_le_of_ne h he
    cases rtp <;> simp [slackColor, isPriorityIPFlag, isFailoverIPFlag, he, hlt]

/-- Witness for C8: a failover transition (priority 50 of max 100) is colored
`"danger"`. -/
theorem C8_witness :
    ((50 : Int) ≤ 100) ∧
    slackColor false (isPriorityIPFlag 50 100) (isFailoverIPFlag 50 100) = "danger" :=
  ⟨by norm_num,
   (C8_slackColor_characterization false 50 100 (by norm_num)).trans (by norm_num)⟩

/-- Claim C7. When the explicit `priorityLevels` normalize to empty, the
effective levels come from the legacy fields: `priorityFailoverIps` becomes
the priority-100 level and `failoverIps` the priority-0 level, in that order,
each present only when its de-duplicated IP list is non-empty, preserving
input IP order after de-duplication; when the explicit levels normalize
non-empty, they win and the legacy fields are ignored. -/
theorem C7_effectivePriorityLevels_legacy_folding
    (priorityLevels : List PriorityLevel) (pfi fi : List String) :
    (NormalizePriorityLevels priorityLevels = [] →
      EffectivePriorityLevels priorityLevels pfi fi =
        (if uniqueStrings pfi = [] then []
          else [⟨LegacyPriorityHigh, uniqueStrings pfi⟩]) ++
        (if uniqueStrings fi = [] then []
          else [⟨LegacyPriorityLow, uniqueStrings fi⟩])) ∧
    (NormalizePriorityLevels priorityLevels ≠ [] →
      EffectivePriorityLevels priorityLevels pfi fi =
        NormalizePriorityLevels priorityLevels) := by
  constructor
  · intro hempty
    rw [EffectivePriorityLevels]
    simp only [hempty, List.length_nil, lt_irrefl, if_false]
    by_cases hp : 0 < pfi.length <;> by_cases hf : 0 < fi.length
    · rw [legacyPriorityLevels, if_pos hp, if_pos hf]
      exact NormalizePriorityLevels_pair LegacyPriorityHigh LegacyPriorityLow pfi fi
        (by norm_num [LegacyPriorityHigh, LegacyPriorityLow]) hp hf
    · have hfnil : fi = [] := by
        cases fi with
        | nil => rfl
        | cons a l => exact absurd (by simp) hf
      subst hfnil
      rw [legacyPriorityLevels, if_pos hp, if_neg hf, List.append_nil]
      rw [show uniqueStrings [] = [] from rfl, if_pos rfl, List.append_nil]
      exact NormalizePriorityLevels_single LegacyPriorityHigh pfi hp
    · have hpnil : pfi = [] := by
        cases pfi with
        | nil => rfl
        | cons a l => exact absurd (by simp) hp
      subst hpnil
      rw [legacyPriorityLevels, if_neg hp, if_pos hf, List.nil_append]
      rw [show uniqueStrings [] = [] from rfl, if_pos rfl, List.nil_append]
      exact NormalizePriorityLevels_single LegacyPriorityLow fi hf
    · have hfnil : fi = [] := by
        cases fi with
        | nil => rfl
        | cons a l => exact absurd (by simp) hf
      have hpnil : pfi = [] := by
        cases pfi with
        | nil => rfl
        | cons a l => exact absurd (by simp) hp
      subst hfnil
      subst hpnil
      rfl
  · intro hne
    rw [EffectivePriorityLevels]
    have hpos : 0 < (NormalizePriorityLevels priorityLevels).length :=
      List.length_pos.mpr hne
    simp only [if_pos hpos]

/-- Witness for C7: a config using only the legacy fields yields exactly the
two levels 100 and 0, in order, de-duplicated. -/
theorem C7_witness :
    NormalizePriorityLevels ([] : List PriorityLevel) = [] ∧
    EffectivePriorityLevels [] ["1.1.1.1", "1.1.1.1"] ["2.2.2.2"] =
      [⟨100, ["1.1.1.1"]⟩, ⟨0, ["2.2.2.2"]⟩] :=
  ⟨rfl,
   ((C7_effectivePriorityLevels_legacy_folding [] ["1.1.1.1", "1.1.1.1"]
      ["2.2.2.2"]).1 rfl).trans (by decide)⟩

/-- Counterexample for C4: with three current records, desired `1.1.1.1`, and
a provider rejecting every delete, the call stops at the first failed delete
(`r2`): the second surplus record `r3` is never attempted, and the single
first error — not an aggregate — is returned. -/
theorem C4_counterexample_delete_not_continued :
    (ReplaceRecords (fun _ => true) (fun _ => false)
      [⟨"r1", "1.1.1.1"⟩, ⟨"r2", "2.2.2.2"⟩, ⟨"r3", "3.3.3.3"⟩] ["1.1.1.1"]).2 =
        .error (.deleteFailed "r2") ∧
    (∀ b, Ev.delete "r3" b ∉
      (ReplaceRecords (fun _ => true) (fun _ => false)
        [⟨"r1", "1.1.1.1"⟩, ⟨"r2", "2.2.2.2"⟩, ⟨"r3", "3.3.3.3"⟩] ["1.1.1.1"]).1) := by
  constructor
  · rfl
  · decide

/-- Claim C4, amended. A delete failure stops the delete phase: `deleteRecords`
deletes the records before the first failing one, attempts the failing one,
does not attempt any later record, and returns that first delete error alone
(no aggregate). -/
theorem C4_amended_delete_stops_at_first_failure (g : String → Bool)
    (p q : List RecordResponse) (r : RecordResponse)
    (hp : ∀ x ∈ p, g x.id = true) (hr : g r.id = false) :
    deleteRecords g (p ++ r :: q) =
      (p.map (fun x => Ev.delete x.id true) ++ [Ev.delete r.id false],
       .error (.deleteFailed r.id)) :=
  deleteRecords_stops_at_first_failure g p q r hp hr

/-- Witness for C4: one successful delete, then a failure, with one record
never attempted. -/
theorem C4_witness :
    deleteRecords (fun i => i == "r2")
      ([⟨"r2", "2.2.2.2"⟩] ++ ⟨"r3", "3.3.3.3"⟩ :: [⟨"r4", "4.4.4.4"⟩]) =
      ([Ev.delete "r2" true, Ev.delete "r3" false],
       .error (.deleteFailed "r3")) :=
  (C4_amended_delete_stops_at_first_failure (fun i => i == "r2")
    [⟨"r2", "2.2.2.2"⟩] [⟨"r4", "4.4.4.4"⟩] ⟨"r3", "3.3.3.3"⟩
    (by decide) (by decide)).trans rfl

/-- Counterexample for C5: after `1.1.1.1` is created and the create of
`2.2.2.2` fails, the call returns the create error with no delete issued at
all — the record created earlier in the call is left behind, not
best-effort deleted. -/
theorem C5_counterexample_no_rollback :
    (ReplaceRecords (fun c => c == "1.1.1.1") (fun _ => true)
      [⟨"r1", "9.9.9.9"⟩] ["1.1.1.1", "2.2.2.2"]).2 =
        .error (.createFailed "2.2.2.2") ∧
    Ev.create "1.1.1.1" true ∈
      (ReplaceRecords (fun c => c == "1.1.1.1") (fun _ => true)
        [⟨"r1", "9.9.9.9"⟩] ["1.1.1.1", "2.2.2.2"]).1 ∧
    (∀ e ∈ (ReplaceRecords (fun c => c == "1.1.1.1") (fun _ => true)
        [⟨"r1", "9.9.9.9"⟩] ["1.1.1.1", "2.2.2.2"]).1, e.isDelete = false) := by
  refine ⟨rfl, by decide, by decide⟩

/-- Claim C5, amended. When a create fails inside `ReplaceRecords`, the call
returns the create error immediately and issues no delete whatsoever: records
created earlier in the call are left in place (no best-effort rollback). -/
theorem C5_amended_create_error_leaves_created_records
    (createOk deleteOk : String → Bool) (records : List RecordResponse)
    (newContents : List String) (c : String)
    (herr : (ReplaceRecords createOk deleteOk records newContents).2 =
      .error (.createFailed c)) :
    ∀ e ∈ (ReplaceRecords createOk deleteOk records newContents).1,
      e.isCreate = true := by
  by_cases hlen : newContents.length = 0
  · rw [replace_guard createOk deleteOk records hlen] at herr
    exact absurd herr (by simp)
  · by_cases hr0 : records.length = 0
    · rw [replace_emptyRecords createOk deleteOk hlen hr0]
      intro e he
      obtain ⟨d, b, _, rfl⟩ := createRecords_events he
      rfl
    · rcases createRecords_cases createOk (missingOf records newContents) with
        ⟨hallok, heq⟩ | ⟨p, d, q, hcs, hp, hdfail, heq⟩
      · by_cases hdel : (toDeleteOf records newContents).length = 0
        · rw [replace_main_okNoDelete createOk deleteOk hlen hr0 heq hdel] at herr
          exact absurd herr (by simp)
        · rw [replace_main_okDelete createOk deleteOk hlen hr0 heq hdel] at herr
          rcases deleteRecords_error_shape (g := deleteOk)
              (toDeleteOf records newContents) with hok | ⟨r, _, hfail⟩
          · rw [hok] at herr
            exact absurd herr (by simp)
          · rw [hfail] at herr
            exact absurd herr (by simp)
      · rw [replace_main_createError createOk deleteOk hlen hr0 heq]
        intro e he
        rcases List.mem_append.mp he with h | h
        · obtain ⟨d', _, rfl⟩ := List.mem_map.mp h
          rfl
        · rw [List.mem_singleton.mp h]
          rfl

/-- Witness for C5: the create-failure scenario, with the earlier-created
record's create event shown to be a create (and, per the theorem, the whole
trace contains only creates). -/
theorem C5_witness :
    (ReplaceRecords (fun c => c == "1.1.1.1") (fun _ => true)
      [⟨"r1", "9.9.9.9"⟩] ["1.1.1.1", "2.2.2.2"]).2 =
        Except.error (ApiError.createFailed "2.2.2.2") ∧
    (Ev.create "1.1.1.1" true).isCreate = true :=
  ⟨rfl,
   C5_amended_create_error_leaves_created_records (fun c => c == "1.1.1.1")
     (fun _ => true) [⟨"r1", "9.9.9.9"⟩] ["1.1.1.1", "2.2.2.2"] "2.2.2.2" rfl
     (Ev.create "1.1.1.1" true) (by decide)⟩

/-- Claim C10. The emptiness guard of `ReplaceRecords` inspects the raw
`newContents` argument before empty strings are stripped: the guard error is
returned exactly when the argument list has length zero.  Consequently a
non-empty list of empty strings passes the guard, yields an empty desired
set, creates nothing, deletes every existing record, and succeeds, leaving
the record set empty. -/
theorem C10_empty_guard_raw_and_all_empty_strings
    (createOk deleteOk : String → Bool) (mkId : String → String)
    (records : List RecordResponse) (newContents : List String) :
    ((ReplaceRecords createOk deleteOk records newContents).2 =
        .error .noContents ↔ newContents = []) ∧
    (newContents ≠ [] → (∀ c ∈ newContents, c = "") →
      (ReplaceRecords createOk (fun _ => true) records newContents).2 = .ok () ∧
      applyEvs mkId records
        (ReplaceRecords createOk (fun _ => true) records newContents).1 = [] ∧
      (∀ e ∈ (ReplaceRecords createOk (fun _ => true) records newContents).1,
        ∃ r ∈ records, e = Ev.delete r.id true)) := by
  constructor
  · constructor
    · intro h
      by_cases hlen : newContents.length = 0
      · exact List.length_eq_zero.mp hlen
      · exfalso
        by_cases hr0 : records.length = 0
        · rw [replace_emptyRecords createOk deleteOk hlen hr0] at h
          rcases createRecords_error_shape (f := createOk)
              (dedupeContents newContents) with hok | ⟨c, _, herr⟩
          · rw [hok] at h
            simp at h
          · rw [herr] at h
            simp at h
        · rcases createRecords_cases createOk (missingOf records newContents) with
            ⟨_, heq⟩ | ⟨p, d, q, _, _, _, heq⟩
          · by_cases hdel : (toDeleteOf records newContents).length = 0
            · rw [replace_main_okNoDelete createOk deleteOk hlen hr0 heq hdel] at h
              simp at h
            · rw [replace_main_okDelete createOk deleteOk hlen hr0 heq hdel] at h
              rcases deleteRecords_error_shape (g := deleteOk)
                  (toDeleteOf records newContents) with hok | ⟨r, _, herr⟩
              · rw [hok] at h
                simp at h
              · rw [herr] at h
                simp at h
          · rw [replace_main_createError createOk deleteOk hlen hr0 heq] at h
            simp at h
    · intro h
      subst h
      rfl
  · intro hne hall
    have hlen : ¬newContents.length = 0 := fun h => hne (List.length_eq_zero.mp h)
    exact replace_desired_nil createOk mkId records hlen
      (dedupe_eq_nil_of_all_empty hall)

/-- Witness for C10: a single empty string passes the guard, the call
succeeds and empties the record set. -/
theorem C10_witness :
    ([""] : List String) ≠ [] ∧
    (ReplaceRecords (fun _ => true) (fun _ => true)
      [⟨"r1", "1.1.1.1"⟩] [""]).2 = .ok () ∧
    applyEvs (fun c => c) [⟨"r1", "1.1.1.1"⟩]
      (ReplaceRecords (fun _ => true) (fun _ => true)
        [⟨"r1", "1.1.1.1"⟩] [""]).1 = [] :=
  ⟨by decide,
   ((C10_empty_guard_raw_and_all_empty_strings (fun _ => true) (fun _ => true)
      (fun c => c) [⟨"r1", "1.1.1.1"⟩] [""]).2 (by decide) (by decide)).1,
   ((C10_empty_guard_raw_and_all_empty_strings (fun _ => true) (fun _ => true)
      (fun c => c) [⟨"r1", "1.1.1.1"⟩] [""]).2 (by decide) (by decide)).2.1⟩

/-- Claim C6. When the non-empty current record set already equals the desired
set as sets (no duplicate contents), `ReplaceRecords` is a no-op: it issues no
create or delete event (and it contains no update call at all) and succeeds.
Consequently, after a fully successful call, a second call with the same
desired contents issues no mutation either (idempotence). -/
theorem C6_replace_is_noop_when_converged
    (createOk deleteOk : String → Bool) (mkId : String → String)
    (records : List RecordResponse) (newContents : List String) :
    (records ≠ [] → (records.map (·.content)).Nodup →
      (∀ c, c ∈ records.map (·.content) ↔ c ∈ dedupeContents newContents) →
      ReplaceRecords createOk deleteOk records newContents = ([], .ok ())) ∧
    ((records.map (·.id)).Nodup → (∀ c, mkId c ∉ records.map (·.id)) →
      newContents ≠ [] →
      ReplaceRecords createOk deleteOk
        (applyEvs mkId records
          (ReplaceRecords (fun _ => true) (fun _ => true) records newContents).1)
        newContents = ([], .ok ())) := by
  constructor
  · exact fun hne hnodup hset => replace_noop createOk deleteOk hne hnodup hset
  · intro hids hfresh hne2
    have hlen : ¬newContents.length = 0 := fun h => hne2 (List.length_eq_zero.mp h)
    by_cases hr0 : records.length = 0
    · have hrecs : records = [] := List.length_eq_zero.mp hr0
      subst hrecs
      rw [replace_emptyRecords _ _ hlen hr0,
        createRecords_of_all_ok (fun c _ => rfl), applyEvs_creates, List.nil_append]
      by_cases hdes : dedupeContents newContents = []
      · have h0 : (([] : List RecordResponse)).length = 0 := rfl
        rw [hdes, List.map_nil]
        rw [replace_emptyRecords createOk deleteOk hlen h0, hdes]
        rfl
      · apply replace_noop
        · intro habs
          exact hdes (List.map_eq_nil_iff.mp habs)
        · rw [List.map_map,
            show ((fun x : RecordResponse => x.content) ∘
              (fun c => (⟨mkId c, c⟩ : RecordResponse))) = id from rfl,
            List.map_id]
          exact nodup_dedupeContents newContents
        · intro c
          rw [List.map_map,
            show ((fun x : RecordResponse => x.content) ∘
              (fun c => (⟨mkId c, c⟩ : RecordResponse))) = id from rfl,
            List.map_id]
    · by_cases hdes : dedupeContents newContents = []
      · obtain ⟨_, hstate, _⟩ := replace_desired_nil (fun _ => true) mkId records
          hlen hdes
        have h0 : (([] : List RecordResponse)).length = 0 := rfl
        rw [hstate, replace_emptyRecords createOk deleteOk hlen h0, hdes]
        rfl
      · apply replace_noop
        · obtain ⟨d0, hd0⟩ := List.exists_mem_of_ne_nil _ hdes
          intro habs
          have hcnt := final_countP mkId hlen hr0 hids hfresh d0
          rw [habs, if_pos hd0] at hcnt
          exact absurd hcnt.symm (by simp [List.countP_nil])
        · apply List.nodup_iff_count_le_one.mpr
          intro c
          have hcnt := final_countP mkId hlen hr0 hids hfresh c
          have hconv : ((applyEvs mkId records
              (ReplaceRecords (fun _ => true) (fun _ => true) records
                newContents).1).map (·.content)).count c =
              (applyEvs mkId records
              (ReplaceRecords (fun _ => true) (fun _ => true) records
                newContents).1).countP (fun r => r.content == c) := by
            show (List.map _ _).countP (fun d => d == c) = _
            rw [List.countP_map]
            rfl
          rw [hconv, hcnt]
          split <;> omega
        · intro c
          have hcnt := final_countP mkId hlen hr0 hids hfresh c
          constructor
          · intro hmem
            by_contra hnc
            rw [if_neg hnc] at hcnt
            obtain ⟨r, hrmem, hrc⟩ := List.mem_map.mp hmem
            have hpos : 0 < (applyEvs mkId records
                (ReplaceRecords (fun _ => true) (fun _ => true) records
                  newContents).1).countP (fun r => r.content == c) :=
              List.countP_pos_iff.mpr ⟨r, hrmem, by simp [hrc]⟩
            omega
          · intro hcd
            rw [if_pos hcd] at hcnt
            have hpos : 0 < (applyEvs mkId records
                (ReplaceRecords (fun _ => true) (fun _ => true) records
                  newContents).1).countP (fun r => r.content == c) := by
              omega
            obtain ⟨r, hrmem, hrc⟩ := List.countP_pos_iff.mp hpos
            exact List.mem_map.mpr ⟨r, hrmem, by simpa using hrc⟩

/-- Witness for C6: a record set already holding the single desired content is
left untouched. -/
theorem C6_witness :
    ([⟨"r1", "1.1.1.1"⟩] : List RecordResponse) ≠ [] ∧
    ReplaceRecords (fun _ => true) (fun _ => true)
      [⟨"r1", "1.1.1.1"⟩] ["1.1.1.1"] = ([], .ok ()) :=
  ⟨by decide,
   (C6_replace_is_noop_when_converged (fun _ => true) (fun _ => true)
      (fun _ => "fresh") [⟨"r1", "1.1.1.1"⟩] ["1.1.1.1"]).1
     (by decide) (by decide) (fun c => Iff.rfl)⟩

/-- Claim C9. After a fully successful `ReplaceRecords` call (every API call
accepted), the provider holds exactly one record per desired content and
nothing else; for a desired content that already had records, the surviving
record is the *first* current record with that content (the later duplicates
are deleted). -/
theorem C9_success_leaves_one_record_per_desired_content
    (mkId : String → String) (records : List RecordResponse)
    (newContents : List String) (hids : (records.map (·.id)).Nodup)
    (hfresh : ∀ c, mkId c ∉ records.map (·.id)) (hne : newContents ≠ []) :
    (∀ c, (applyEvs mkId records
        (ReplaceRecords (fun _ => true) (fun _ => true) records
          newContents).1).countP (fun r => r.content == c) =
        if c ∈ dedupeContents newContents then 1 else 0) ∧
    (∀ c hd tl, groupRecordsByContent records c = hd :: tl →
      c ∈ dedupeContents newContents →
      hd ∈ applyEvs mkId records
        (ReplaceRecords (fun _ => true) (fun _ => true) records newContents).1) := by
  have hlen : ¬newContents.length = 0 := fun h => hne (List.length_eq_zero.mp h)
  by_cases hr0 : records.length = 0
  · have hrecs : records = [] := List.length_eq_zero.mp hr0
    subst hrecs
    rw [replace_emptyRecords _ _ hlen hr0,
      createRecords_of_all_ok (fun c _ => rfl), applyEvs_creates, List.nil_append]
    constructor
    · intro c
      have hmap : ((dedupeContents newContents).map
          (fun c' => (⟨mkId c', c'⟩ : RecordResponse))).countP
            (fun r => r.content == c) =
          (dedupeContents newContents).countP (fun d => d == c) := by
        rw [List.countP_map]
        rfl
      rw [hmap]
      by_cases hc : c ∈ dedupeContents newContents
      · rw [if_pos hc]
        exact List.count_eq_one_of_mem (nodup_dedupeContents newContents) hc
      · rw [if_neg hc]
        exact List.count_eq_zero.mpr hc
    · intro c hd tl hg _
      rw [groupRecordsByContent_eval] at hg
      exact absurd hg (by simp)
  · constructor
    · exact final_countP mkId hlen hr0 hids hfresh
    · intro c hd tl hg hc
      rw [final_state_alltrue mkId hlen hr0 hfresh]
      apply List.mem_append_left
      apply List.mem_filter.mpr
      refine ⟨(mem_group.mp (show hd ∈ groupRecordsByContent records c by
        rw [hg]; exact List.mem_cons_self _ _)).1, ?_⟩
      have hnot := head_not_deleted hids hc hg
      have hcon : ((toDeleteOf records newContents).map (·.id)).contains
          hd.id = false :=
        Bool.eq_false_iff.mpr (fun h => hnot (List.elem_iff.mp h))
      rw [hcon]
      rfl

/-- Witness for C9: two current records with the same desired content; after
the successful call exactly one record with that content remains. -/
theorem C9_witness :
    (["1.1.1.1"] : List String) ≠ [] ∧
    (applyEvs (fun _ => "fresh") [⟨"r1", "1.1.1.1"⟩, ⟨"r2", "1.1.1.1"⟩]
      (ReplaceRecords (fun _ => true) (fun _ => true)
        [⟨"r1", "1.1.1.1"⟩, ⟨"r2", "1.1.1.1"⟩] ["1.1.1.1"]).1).countP
        (fun r => r.content == "1.1.1.1") = 1 :=
  ⟨by decide,
   ((C9_success_leaves_one_record_per_desired_content (fun _ => "fresh")
      [⟨"r1", "1.1.1.1"⟩, ⟨"r2", "1.1.1.1"⟩] ["1.1.1.1"] (by decide)
      (fun _ => (by decide : ("fresh" : String) ∉
        List.map (fun x => RecordResponse.id x)
          [⟨"r1", "1.1.1.1"⟩, ⟨"r2", "1.1.1.1"⟩]))
      (by decide)).1 "1.1.1.1").trans (by decide)⟩

/-- Witness for C1: concrete instance with one existing record and one desired
content, cut after the first event. -/
theorem C1_witness :
    (["1.1.1.1"] : List String) ≠ [] ∧
    applyEvs (fun _ => "fresh") [⟨"r1", "9.9.9.9"⟩]
      ((ReplaceRecords (fun _ => true) (fun _ => true)
        [⟨"r1", "9.9.9.9"⟩] ["1.1.1.1"]).1.take 1) ≠ [] :=
  ⟨by decide,
   (C1_replaceRecords_create_before_delete_nonempty (fun _ => true) (fun _ => true)
      (fun _ => "fresh") [⟨"r1", "9.9.9.9"⟩] ["1.1.1.1"]
      (by decide) (by decide) (by decide)
      (fun _ => (by decide : ("fresh" : String) ∉
        List.map (fun x => RecordResponse.id x)
          [⟨"r1", "9.9.9.9"⟩]))).2.2 (by decide) 1⟩

end Gslb
